import Mathlib

/-!
Verification development for the gonfig repository: a YAML-to-Go config
struct generator (`cmd/gonfig/main.go`) together with an environment
placeholder expander (`expand.go`).

The Go source is shallowly embedded below.  Decoded YAML values become the
inductive type `Value`, the comment-bearing YAML AST becomes `YNode`, Go
maps become association lists (iteration is always through explicit
lexicographic sorting, mirroring `sortedKeys`), Go float64 values become
exact rationals (all numeric literals appearing in the relevant claims are
exactly representable), and the process environment becomes a function
`String → Option String`.  String manipulation is modelled on `List Char`
with structural recursion so that every definition is executable and
kernel-reducible where possible.
-/

/-! ## Character and string helpers

These model the handful of Go standard library string functions the source
uses (`strconv.Itoa`, `strings.TrimSpace`, `strings.Split`,
`strings.HasPrefix`, `strings.Join`, `strings.FieldsFunc`).  They are
defined over `List Char` by structural recursion.
-/

/-- Decimal digit character, as produced by `strconv.Itoa`. -/
def digitChar (d : Nat) : Char := Char.ofNat (48 + d)

/-- Models `strconv.Itoa`: the decimal representation of a natural number.
Digits are produced via `Nat.digits 10` (little endian) and reversed. -/
def itoa (n : Nat) : String :=
  if n = 0 then "0" else String.mk (((Nat.digits 10 n).map digitChar).reverse)

/-- Left inverse of `itoa`, used only to prove `itoa` injective. -/
def atoi (s : String) : Nat :=
  Nat.ofDigits 10 (s.data.reverse.map (fun c => c.toNat - 48))

theorem digitChar_toNat {d : Nat} (hd : d < 10) : (digitChar d).toNat = 48 + d := by
  interval_cases d <;> rfl

theorem atoi_itoa (n : Nat) : atoi (itoa n) = n := by
  by_cases h : n = 0
  · subst h; rfl
  · unfold itoa atoi
    rw [if_neg h]
    simp only [List.reverse_reverse, List.map_map]
    have hmap : (Nat.digits 10 n).map ((fun c => c.toNat - 48) ∘ digitChar) = Nat.digits 10 n := by
      have : ∀ d ∈ Nat.digits 10 n, ((fun c => c.toNat - 48) ∘ digitChar) d = d := by
        intro d hd
        have hlt : d < 10 := Nat.digits_lt_base (by norm_num) hd
        simp [Function.comp, digitChar_toNat hlt]
      calc (Nat.digits 10 n).map ((fun c => c.toNat - 48) ∘ digitChar)
          = (Nat.digits 10 n).map id := List.map_congr_left this
        _ = Nat.digits 10 n := List.map_id _
    rw [hmap, Nat.ofDigits_digits]

theorem itoa_injective : Function.Injective itoa :=
  Function.LeftInverse.injective atoi_itoa

theorem string_append_left_cancel {a b c : String} (h : a ++ b = a ++ c) : b = c := by
  apply String.ext
  have hd := congrArg String.data h
  simp only [String.data_append] at hd
  exact List.append_cancel_left hd

/-- For any finite list of used names there is a numeric suffix index whose
attachment to the base name is still free.  This is what makes the numeric
disambiguation loop in `deriveTypeName` terminate. -/
theorem free_suffix_exists (used : List String) (base : String) :
    ∃ i : Nat, (base ++ itoa (2 + i)) ∉ used := by
  by_contra hall
  push_neg at hall
  have hinj : Function.Injective (fun i : Nat => base ++ itoa (2 + i)) := by
    intro i j hij
    have := string_append_left_cancel hij
    have := itoa_injective this
    omega
  have hsub : ((List.range (used.length + 1)).map (fun i => base ++ itoa (2 + i))) ⊆ used := by
    intro x hx
    rcases List.mem_map.mp hx with ⟨i, _, rfl⟩
    exact hall i
  have hnd : ((List.range (used.length + 1)).map (fun i => base ++ itoa (2 + i))).Nodup :=
    (List.nodup_range _).map_on (fun i _ j _ h => hinj h)
  have hle := (List.subperm_of_subset hnd hsub).length_le
  simp [List.length_map, List.length_range] at hle

/-- Models strings.Join with a separator. -/
def joinSep (sep : String) : List String → String
  | [] => ""
  | [x] => x
  | x :: xs => x ++ sep ++ joinSep sep xs

/-! ## Environment placeholder expander (expand.go)

The regex scan of `rePlaceholder.ReplaceAllStringFunc` is modelled as an
explicit left-to-right pass over the character list: a match is a dollar
sign, an opening brace, one or more characters none of which is a closing
brace, and a closing brace.  The process environment is a function
`String → Option String` (models os.LookupEnv).
-/

/-- Splits a placeholder interior at the first occurrence of the two
character separator used for defaults (models strings.Index(inner, ":-")):
returns the part before and the part after when the separator occurs. -/
def breakColonDash : List Char → Option (List Char × List Char)
  | [] => none
  | ':' :: '-' :: rest => some ([], rest)
  | c :: rest => (breakColonDash rest).map (fun pr => (c :: pr.1, pr.2))

/-- Reads one placeholder interior at the start of the input: the characters
before the first closing brace, which the regex requires to be nonempty.
Returns the interior and the remaining input after the closing brace. -/
def takeInner (cs : List Char) : Option (List Char × List Char) :=
  let inner := cs.takeWhile (fun c => c ≠ '\x7d')
  match cs.dropWhile (fun c => c ≠ '\x7d') with
  | '\x7d' :: rest => if inner.isEmpty then none else some (inner, rest)
  | _ => none

theorem takeInner_eq {cs inner rest : List Char}
    (h : takeInner cs = some (inner, rest)) :
    inner = cs.takeWhile (fun c => c ≠ '\x7d') ∧
      cs.dropWhile (fun c => c ≠ '\x7d') = '\x7d' :: rest := by
  unfold takeInner at h
  split at h
  next r heq =>
    dsimp only at h
    split at h
    · exact absurd h (by simp)
    · simp only [Option.some.injEq, Prod.mk.injEq] at h
      exact ⟨h.1.symm, by rw [heq, h.2]⟩
  next => exact absurd h (by simp)

theorem takeInner_length {cs inner rest : List Char}
    (h : takeInner cs = some (inner, rest)) : rest.length < cs.length := by
  obtain ⟨-, h2⟩ := takeInner_eq h
  have hlen := congrArg List.length (List.takeWhile_append_dropWhile (fun c => c ≠ '\x7d') cs)
  rw [h2] at hlen
  simp only [List.length_append, List.length_cons] at hlen
  omega

/-- The name and optional default carried by a placeholder interior: the
interior is split at the first occurrence of the default separator when it
has one (mirrors the `idx := strings.Index(inner, ":-")` block). -/
def nameDefOf (inner : List Char) : String × Option String :=
  match breakColonDash inner with
  | some (n, d) => (String.mk n, some (String.mk d))
  | none => (String.mk inner, none)

/-- The tail of the ReplaceAllStringFunc callback: look the name up in the
environment, fall back to the default when present, otherwise substitute the
empty string, recording the name as missing when in strict mode.  Returns
the replacement text and the names recorded missing by this match. -/
def resolveNameDef (env : String → Option String) (strict : Bool)
    (name : String) (dflt : Option String) : String × List String :=
  match env name with
  | some val => (val, [])
  | none =>
    match dflt with
    | some d => (d, [])
    | none => if strict then ("", [name]) else ("", [])

/-- Resolution of one matched placeholder interior, mirroring the whole
callback body passed to ReplaceAllStringFunc in expandEnv. -/
def resolveInner (env : String → Option String) (strict : Bool) (inner : List Char) :
    String × List String :=
  resolveNameDef env strict (nameDefOf inner).1 (nameDefOf inner).2

/-- The single pass of expandEnv: replaces every placeholder match from left
to right and accumulates all names recorded missing, in match order. -/
def scanExpand (env : String → Option String) (strict : Bool) : List Char → String × List String
  | [] => ("", [])
  | '$' :: '\x7b' :: rest =>
    match h : takeInner rest with
    | some (inner, rest2) =>
      let r := resolveInner env strict inner
      let s := scanExpand env strict rest2
      (r.1 ++ s.1, r.2 ++ s.2)
    | none =>
      let s := scanExpand env strict rest
      ("$\x7b" ++ s.1, s.2)
  | c :: rest =>
    let s := scanExpand env strict rest
    (String.singleton c ++ s.1, s.2)
termination_by cs => cs.length
decreasing_by
  · have := takeInner_length h
    simp only [List.length_cons]
    omega
  · simp only [List.length_cons]; omega
  · simp only [List.length_cons]; omega

/-- Models expandEnv from expand.go: one full replacement pass, then one
aggregated error when strict mode recorded any missing names. -/
def expandEnv (env : String → Option String) (s : String) (strict : Bool) :
    Except String String :=
  let r := scanExpand env strict s.data
  if r.2.isEmpty then Except.ok r.1
  else Except.error ("missing required env vars: " ++ joinSep ", " r.2)

/-- The sequence of placeholders matched by the scan, in match order, each
split into its name and optional default.  This is the declarative
description of the input against which the accumulated missing-name list is
characterised. -/
def placeholdersOf : List Char → List (String × Option String)
  | [] => []
  | '$' :: '\x7b' :: rest =>
    match h : takeInner rest with
    | some (inner, rest2) => nameDefOf inner :: placeholdersOf rest2
    | none => placeholdersOf rest
  | _ :: rest => placeholdersOf rest
termination_by cs => cs.length
decreasing_by
  · have := takeInner_length h
    simp only [List.length_cons]
    omega
  · simp only [List.length_cons]; omega
  · simp only [List.length_cons]; omega

/-- The names of the placeholders with no default whose variable is unset:
exactly the names strict mode must report. -/
def missingOf (env : String → Option String) (cs : List Char) : List String :=
  ((placeholdersOf cs).filter (fun p => (env p.1).isNone && p.2.isNone)).map Prod.fst

/-! ## Behavioural lemmas for the expander scan -/

theorem scanExpand_nil (env : String → Option String) (strict : Bool) :
    scanExpand env strict [] = ("", []) := by
  simp [scanExpand]

theorem scanExpand_match (env : String → Option String) (strict : Bool)
    {rest inner rest2 : List Char} (h : takeInner rest = some (inner, rest2)) :
    scanExpand env strict ('$' :: '\x7b' :: rest) =
      ((resolveInner env strict inner).1 ++ (scanExpand env strict rest2).1,
       (resolveInner env strict inner).2 ++ (scanExpand env strict rest2).2) := by
  rw [scanExpand.eq_def]
  split
  next heq => cases heq
  next rest3 heq =>
    simp only [List.cons.injEq, true_and] at heq
    subst heq
    split
    next inner2 rest4 heq2 =>
      rw [h] at heq2
      simp only [Option.some.injEq, Prod.mk.injEq] at heq2
      obtain ⟨rfl, rfl⟩ := heq2
      rfl
    next heq2 =>
      rw [h] at heq2
      cases heq2
  next x c2 rest3 hcond heq =>
    simp only [List.cons.injEq] at heq
    exact (hcond rest heq.1.symm heq.2.symm).elim

theorem scanExpand_nomatch (env : String → Option String) (strict : Bool)
    {rest : List Char} (h : takeInner rest = none) :
    scanExpand env strict ('$' :: '\x7b' :: rest) =
      ("$\x7b" ++ (scanExpand env strict rest).1, (scanExpand env strict rest).2) := by
  rw [scanExpand.eq_def]
  split
  next heq => cases heq
  next rest3 heq =>
    simp only [List.cons.injEq, true_and] at heq
    subst heq
    split
    next inner2 rest4 heq2 =>
      rw [h] at heq2
      cases heq2
    next heq2 => rfl
  next x c2 rest3 hcond heq =>
    simp only [List.cons.injEq] at heq
    exact (hcond rest heq.1.symm heq.2.symm).elim

theorem scanExpand_other (env : String → Option String) (strict : Bool)
    (c : Char) (rest : List Char)
    (hne : ∀ rest2 : List Char, c = '$' → rest = '\x7b' :: rest2 → False) :
    scanExpand env strict (c :: rest) =
      (String.singleton c ++ (scanExpand env strict rest).1, (scanExpand env strict rest).2) := by
  rw [scanExpand.eq_def]
  split
  next heq => cases heq
  next rest3 heq =>
    simp only [List.cons.injEq] at heq
    exact (hne rest3 heq.1 heq.2).elim
  next x c2 rest3 hcond heq =>
    simp only [List.cons.injEq] at heq
    obtain ⟨rfl, rfl⟩ := heq
    rfl

theorem placeholdersOf_nil : placeholdersOf [] = [] := by
  simp [placeholdersOf]

theorem placeholdersOf_match {rest inner rest2 : List Char}
    (h : takeInner rest = some (inner, rest2)) :
    placeholdersOf ('$' :: '\x7b' :: rest) = nameDefOf inner :: placeholdersOf rest2 := by
  rw [placeholdersOf.eq_def]
  split
  next heq => cases heq
  next rest3 heq =>
    simp only [List.cons.injEq, true_and] at heq
    subst heq
    split
    next inner2 rest4 heq2 =>
      rw [h] at heq2
      simp only [Option.some.injEq, Prod.mk.injEq] at heq2
      obtain ⟨rfl, rfl⟩ := heq2
      rfl
    next heq2 =>
      rw [h] at heq2
      cases heq2
  next x c2 rest3 hcond heq =>
    simp only [List.cons.injEq] at heq
    exact (hcond rest heq.1.symm heq.2.symm).elim

theorem placeholdersOf_nomatch {rest : List Char} (h : takeInner rest = none) :
    placeholdersOf ('$' :: '\x7b' :: rest) = placeholdersOf rest := by
  rw [placeholdersOf.eq_def]
  split
  next heq => cases heq
  next rest3 heq =>
    simp only [List.cons.injEq, true_and] at heq
    subst heq
    split
    next inner2 rest4 heq2 =>
      rw [h] at heq2
      cases heq2
    next heq2 => rfl
  next x c2 rest3 hcond heq =>
    simp only [List.cons.injEq] at heq
    exact (hcond rest heq.1.symm heq.2.symm).elim

theorem placeholdersOf_other (c : Char) (rest : List Char)
    (hne : ∀ rest2 : List Char, c = '$' → rest = '\x7b' :: rest2 → False) :
    placeholdersOf (c :: rest) = placeholdersOf rest := by
  rw [placeholdersOf.eq_def]
  split
  next heq => cases heq
  next rest3 heq =>
    simp only [List.cons.injEq] at heq
    exact (hne rest3 heq.1 heq.2).elim
  next x c2 rest3 hcond heq =>
    simp only [List.cons.injEq] at heq
    obtain ⟨rfl, rfl⟩ := heq
    rfl

theorem resolveNameDef_false_missing (env : String → Option String) (name : String)
    (dflt : Option String) : (resolveNameDef env false name dflt).2 = [] := by
  unfold resolveNameDef
  rcases env name with _ | v
  · rcases dflt with _ | d <;> simp
  · simp

theorem resolveNameDef_fst (env : String → Option String) (name : String)
    (dflt : Option String) :
    (resolveNameDef env true name dflt).1 = (resolveNameDef env false name dflt).1 := by
  unfold resolveNameDef
  rcases env name with _ | v
  · rcases dflt with _ | d <;> simp
  · simp

theorem resolveNameDef_true_missing (env : String → Option String) (name : String)
    (dflt : Option String) :
    (resolveNameDef env true name dflt).2 =
      if ((env name).isNone && dflt.isNone) then [name] else [] := by
  unfold resolveNameDef
  rcases env name with _ | v
  · rcases dflt with _ | d <;> simp
  · simp

theorem scanExpand_false_missing (env : String → Option String) (cs : List Char) :
    (scanExpand env false cs).2 = [] := by
  induction cs using scanExpand.induct env false with
  | case1 => rw [scanExpand_nil]
  | case2 rest inner rest2 h ih =>
    rw [scanExpand_match env false h]
    simp [resolveInner, resolveNameDef_false_missing, ih]
  | case3 rest h ih =>
    rw [scanExpand_nomatch env false h]
    exact ih
  | case4 c rest hne ih =>
    rw [scanExpand_other env false c rest hne]
    exact ih

theorem scanExpand_fst_strict (env : String → Option String) (cs : List Char) :
    (scanExpand env true cs).1 = (scanExpand env false cs).1 := by
  induction cs using scanExpand.induct env true with
  | case1 => rw [scanExpand_nil, scanExpand_nil]
  | case2 rest inner rest2 h ih =>
    rw [scanExpand_match env true h, scanExpand_match env false h]
    simp only [resolveInner, resolveNameDef_fst, ih]
  | case3 rest h ih =>
    rw [scanExpand_nomatch env true h, scanExpand_nomatch env false h, ih]
  | case4 c rest hne ih =>
    rw [scanExpand_other env true c rest hne, scanExpand_other env false c rest hne, ih]

theorem scanExpand_true_missing (env : String → Option String) (cs : List Char) :
    (scanExpand env true cs).2 = missingOf env cs := by
  induction cs using scanExpand.induct env true with
  | case1 => rw [scanExpand_nil]; simp [missingOf, placeholdersOf_nil]
  | case2 rest inner rest2 h ih =>
    rw [scanExpand_match env true h]
    simp only [resolveInner, resolveNameDef_true_missing, ih]
    unfold missingOf
    rw [placeholdersOf_match h, List.filter_cons]
    by_cases hp : ((env (nameDefOf inner).1).isNone && (nameDefOf inner).2.isNone) = true
    · rw [if_pos hp, if_pos hp]
      simp [missingOf]
    · rw [if_neg hp, if_neg hp]
      simp [missingOf]
  | case3 rest h ih =>
    rw [scanExpand_nomatch env true h, ih]
    unfold missingOf
    rw [placeholdersOf_nomatch h]
  | case4 c rest hne ih =>
    rw [scanExpand_other env true c rest hne, ih]
    unfold missingOf
    rw [placeholdersOf_other c rest hne]

theorem takeWhile_append_all {α} (p : α → Bool) {a : List α} (b : List α)
    (ha : ∀ x ∈ a, p x) :
    (a ++ b).takeWhile p = a ++ b.takeWhile p ∧ (a ++ b).dropWhile p = b.dropWhile p := by
  induction a with
  | nil => simp
  | cons x xs ih =>
    have hx := ha x (by simp)
    have ihx := ih (fun y hy => ha y (by simp [hy]))
    simp [List.takeWhile_cons, List.dropWhile_cons, hx, ihx.1, ihx.2]

theorem breakColonDash_other (c : Char) (rest : List Char)
    (hne : ∀ rest2 : List Char, c = ':' → rest = '-' :: rest2 → False) :
    breakColonDash (c :: rest) = (breakColonDash rest).map (fun pr => (c :: pr.1, pr.2)) := by
  rw [breakColonDash.eq_def]
  split
  next heq => cases heq
  next rest3 heq =>
    simp only [List.cons.injEq] at heq
    exact (hne rest3 heq.1 heq.2).elim
  next x c2 rest3 hcond heq =>
    simp only [List.cons.injEq] at heq
    obtain ⟨rfl, rfl⟩ := heq
    rfl

theorem breakColonDash_none_cons {c : Char} {rest : List Char}
    (h : breakColonDash (c :: rest) = none) : breakColonDash rest = none := by
  rw [breakColonDash.eq_def] at h
  split at h
  next heq => cases heq
  next rest3 heq => cases h
  next x c2 rest3 hcond heq =>
    simp only [List.cons.injEq] at heq
    obtain ⟨rfl, rfl⟩ := heq
    exact Option.map_eq_none.mp h

theorem breakColonDash_append_sep {xs : List Char} (h : breakColonDash xs = none) :
    breakColonDash (xs ++ [':', '-']) = some (xs, []) := by
  induction xs with
  | nil => rfl
  | cons c rest ih =>
    have hrest : breakColonDash rest = none := breakColonDash_none_cons h
    have hne : ∀ rest2 : List Char, c = ':' → rest = '-' :: rest2 → False := by
      intro rest2 hc hr
      subst hc; subst hr
      rw [breakColonDash.eq_def] at h
      cases h
    have hne2 : ∀ rest2 : List Char, c = ':' → rest ++ [':', '-'] = '-' :: rest2 → False := by
      intro rest2 hc hr
      rcases rest with _ | ⟨r0, rtl⟩
      · simp at hr
      · simp only [List.cons_append, List.cons.injEq] at hr
        exact hne rtl hc (by rw [hr.1])
    rw [List.cons_append, breakColonDash_other c (rest ++ [':', '-']) hne2, ih hrest]
    rfl

theorem str_append_empty (s : String) : s ++ "" = s := by
  apply String.ext
  simp [String.data_append]

/-- C6: for every input string and environment, strict-mode placeholder
expansion scans the whole input: each placeholder whose variable is unset
and has no default is recorded as missing and scanning continues, and after
the full pass expansion fails with one aggregated error listing all
recorded missing names (not just the first); in non-strict mode expansion
never fails and substitutes the empty string for such placeholders.  The
statement: the non-strict pass always returns ok, and the strict pass
returns the non-strict output when no placeholder of the whole input is
missing and otherwise the single aggregated error listing every missing
placeholder name of the whole input in scan order. -/
theorem expandEnv_strict_aggregates_all (env : String → Option String) (s : String) :
    (∃ out, expandEnv env s false = Except.ok out) ∧
    expandEnv env s true =
      (if missingOf env s.data = [] then expandEnv env s false
       else Except.error ("missing required env vars: " ++
         joinSep ", " (missingOf env s.data))) := by
  have hdef : ∀ b, expandEnv env s b =
      (if (scanExpand env b s.data).2.isEmpty then Except.ok (scanExpand env b s.data).1
       else Except.error ("missing required env vars: " ++
         joinSep ", " (scanExpand env b s.data).2)) := fun b => rfl
  have hf := scanExpand_false_missing env s.data
  have hm := scanExpand_true_missing env s.data
  have h1 := scanExpand_fst_strict env s.data
  refine ⟨⟨(scanExpand env false s.data).1, by rw [hdef false, hf]; rfl⟩, ?_⟩
  rw [hdef true, hdef false, hm, hf, h1]
  by_cases hc : missingOf env s.data = []
  · rw [if_pos hc, hc]
  · rw [if_neg hc]
    have : (missingOf env s.data).isEmpty = false := by
      rcases h : missingOf env s.data with _ | ⟨x, xs⟩
      · exact absurd h hc
      · rfl
    rw [this]
    rfl

/-- C10: for every placeholder of the form NAME followed by the empty
default (the separator with nothing after it, before the closing brace),
expansion substitutes the looked-up value, or the empty string when the
variable is unset, and never records the name as missing, so strict mode
succeeds for that placeholder even when the variable is unset: the presence
of the default separator alone suppresses the strict-mode failure.  The
side conditions say the name contains no closing brace and no occurrence of
the default separator, so that the placeholder is read as intended. -/
theorem expandEnv_empty_default_strict (env : String → Option String) (name : String)
    (h1 : '\x7d' ∉ name.data) (h2 : breakColonDash name.data = none) :
    expandEnv env ("$\x7b" ++ name ++ ":-\x7d") true =
      Except.ok ((env name).getD "") := by
  have hdata : ("$\x7b" ++ name ++ ":-\x7d").data =
      '$' :: '\x7b' :: (name.data ++ [':', '-', '\x7d']) := by
    simp only [String.data_append, List.cons_append, List.nil_append, List.append_assoc]
  have hmemP : ∀ x ∈ name.data, (fun c => decide (c ≠ '\x7d')) x = true := by
    intro x hx
    simp only [decide_eq_true_eq, ne_eq]
    intro hxe
    subst hxe
    exact h1 hx
  have hTI : takeInner (name.data ++ [':', '-', '\x7d']) =
      some (name.data ++ [':', '-'], []) := by
    obtain ⟨ht, hd⟩ :=
      takeWhile_append_all (fun c => decide (c ≠ '\x7d')) [':', '-', '\x7d'] hmemP
    have h3 : List.takeWhile (fun c => decide (c ≠ '\x7d')) [':', '-', '\x7d'] = [':', '-'] := by
      decide
    have h4 : List.dropWhile (fun c => decide (c ≠ '\x7d')) [':', '-', '\x7d'] = ['\x7d'] := by
      decide
    rw [h3] at ht
    rw [h4] at hd
    unfold takeInner
    dsimp only
    rw [ht, hd]
    have h5 : (name.data ++ [':', '-']).isEmpty = false := by
      rcases name.data with _ | ⟨c, cs⟩ <;> rfl
    rw [h5]
    rfl
  have hscan : scanExpand env true (("$\x7b" ++ name ++ ":-\x7d").data) =
      ((env name).getD "", []) := by
    rw [hdata, scanExpand_match env true hTI, scanExpand_nil]
    unfold resolveInner nameDefOf
    rw [breakColonDash_append_sep h2]
    dsimp only
    rw [show String.mk name.data = name from rfl]
    unfold resolveNameDef
    rcases henv : env name with _ | v
    · simp [str_append_empty]
    · simp [str_append_empty]
  have hdef : expandEnv env ("$\x7b" ++ name ++ ":-\x7d") true =
      (if (scanExpand env true (("$\x7b" ++ name ++ ":-\x7d").data)).2.isEmpty
       then Except.ok (scanExpand env true (("$\x7b" ++ name ++ ":-\x7d").data)).1
       else Except.error ("missing required env vars: " ++
         joinSep ", " (scanExpand env true (("$\x7b" ++ name ++ ":-\x7d").data)).2)) := rfl
  rw [hdef, hscan]
  rfl

/-! ## Shared string helpers for the generator (main.go) -/

/-- Models strings.TrimSpace (the comments the source trims are ASCII). -/
def trimSpace (s : String) : String :=
  String.mk (((s.data.dropWhile Char.isWhitespace).reverse.dropWhile Char.isWhitespace).reverse)

/-- Models strings.Split with a single character separator. -/
def splitOnChar (sep : Char) (s : String) : List String :=
  (s.data.splitOn sep).map String.mk

/-- Models strings.HasPrefix. -/
def hasPrefixStr (pre s : String) : Bool := pre.data.isPrefixOf s.data

/-- Models the byte slice s[n:] for an ASCII position n. -/
def dropChars (n : Nat) (s : String) : String := String.mk (s.data.drop n)

/-- The separator rune test in toExportedName (underscore, hyphen, space,
dot). -/
def isSepRune (r : Char) : Bool := r = '_' || r = '-' || r = ' ' || r = '.'

/-- Models toExportedName from main.go: split the key on separator runes
keeping only the nonempty parts (strings.FieldsFunc), capitalize the first
rune of each part, join, and finally upper-case a lower-case leading rune.
The empty-part and decode-error branches of the Go loop are unreachable
after FieldsFunc and are modelled by the identity arms; Char.toUpper covers
the ASCII fragment of unicode.ToUpper. -/
def toExportedName (key : String) : String :=
  let parts := (key.data.splitOnP isSepRune).filter (fun p => p ≠ [])
  match parts with
  | [] => "Field"
  | _ =>
    let flat := (parts.map (fun p =>
      match p with
      | [] => p
      | c :: rest => c.toUpper :: rest)).flatten
    match flat with
    | [] => ""
    | c :: rest => if c.isLower then String.mk (c.toUpper :: rest) else String.mk (c :: rest)

/-! ## Float parsing and formatting

Go float64 values are modelled as exact rationals.  strconv.ParseFloat is
modelled on the plain decimal fragment (optional sign, digits with at most
one point and at least one digit, optional decimal exponent); hexadecimal
floats, infinities and NaN are outside the modelled fragment.  Every
numeric literal in the claims under verification is a small integer, which
float64 represents exactly, so the rational model is faithful there.
-/

/-- The numeric value of a list of decimal digit characters. -/
def digitsVal (cs : List Char) : Nat := cs.foldl (fun acc c => acc * 10 + (c.toNat - 48)) 0

/-- Mantissa parse: digits with at most one decimal point, at least one
digit in total. -/
def parseMantissa (cs : List Char) : Option ℚ :=
  match cs.splitOn '.' with
  | [ip] =>
    if ip ≠ [] && ip.all Char.isDigit then some ((digitsVal ip : ℚ)) else none
  | [ip, fp] =>
    if (ip ++ fp) ≠ [] && (ip ++ fp).all Char.isDigit then
      some ((digitsVal ip : ℚ) + (digitsVal fp : ℚ) / (10 : ℚ) ^ fp.length)
    else none
  | _ => none

/-- Splits off an exponent part introduced by the letter e in either case. -/
def splitExpChars (cs : List Char) : List Char × Option (List Char) :=
  let m := cs.takeWhile (fun c => c ≠ 'e' && c ≠ 'E')
  match cs.dropWhile (fun c => c ≠ 'e' && c ≠ 'E') with
  | [] => (m, none)
  | _ :: tail => (m, some tail)

/-- Signed decimal exponent parse. -/
def parseIntExp (cs : List Char) : Option Int :=
  match cs with
  | '+' :: rest =>
    if rest ≠ [] && rest.all Char.isDigit then some ((digitsVal rest : Int)) else none
  | '-' :: rest =>
    if rest ≠ [] && rest.all Char.isDigit then some (-(digitsVal rest : Int)) else none
  | _ =>
    if cs ≠ [] && cs.all Char.isDigit then some ((digitsVal cs : Int)) else none

/-- Models strconv.ParseFloat on the plain decimal fragment. -/
def parseFloatQ (s : String) : Option ℚ :=
  let sb : ℚ × List Char :=
    match s.data with
    | '+' :: rest => (1, rest)
    | '-' :: rest => (-1, rest)
    | cs => (1, cs)
  let me := splitExpChars sb.2
  match parseMantissa me.1 with
  | none => none
  | some m =>
    match me.2 with
    | none => some (sb.1 * m)
    | some ecs =>
      match parseIntExp ecs with
      | none => none
      | some e => some (sb.1 * m * (10 : ℚ) ^ e)

/-- The digits of the finite decimal expansion of a proper fraction, with
fuel.  Used to model the fmt %v rendering of the float64 bounds: bounds are
parsed from decimal literals, so their expansions terminate. -/
def fracDigits : Nat → Nat → Nat → List Char
  | 0, _, _ => []
  | _, 0, _ => []
  | fuel + 1, r, d => digitChar (r * 10 / d) :: fracDigits fuel (r * 10 % d) d

/-- Models the fmt %v rendering of a float64 bound: integral values print
without a decimal point, fractional values print their finite decimal
digits. -/
def fmtFloat (q : ℚ) : String :=
  let sign := if q < 0 then "-" else ""
  let n := q.num.natAbs
  let d := q.den
  if n % d = 0 then sign ++ itoa (n / d)
  else sign ++ itoa (n / d) ++ "." ++ String.mk (fracDigits 64 (n % d) d)

/-! ## Validation annotation compiler (main.go)

The comment-bearing AST fragment the source reads from yaml.v3 is the node
kind, the scalar tag and value, the trailing same-line comment of each
value node, and for mappings the key/value pairs (keys are the key scalar
values).
-/

/-- Comment-bearing YAML AST node. -/
inductive YNode where
  | scalar (tag value lineComment : String)
  | mapping (entries : List (String × YNode)) (lineComment : String)
  | sequence (items : List YNode) (lineComment : String)

/-- The trailing same-line comment attached to a node (yaml.v3 LineComment). -/
def YNode.comment : YNode → String
  | .scalar _ _ c => c
  | .mapping _ c => c
  | .sequence _ c => c

/-- Models the validateRules struct of main.go. -/
structure validateRules where
  Required : Bool
  Min : Option ℚ
  Max : Option ℚ
  OneOf : List String

/-- The zero value of validateRules. -/
def validateRules.empty : validateRules := ⟨false, none, none, []⟩

/-- Models the fieldValidation struct of main.go. -/
structure fieldValidation where
  GoExpr : String
  YAMLPath : String
  GoType : String
  Required : Bool
  Min : Option ℚ
  Max : Option ℚ
  OneOf : List String

/-- One iteration of the rule-token loop in parseValidateComment: trim the
token and dispatch on its shape, accumulating into the rules and the found
flag.  Unparsable numbers and unknown tokens leave both unchanged. -/
def applyRulePart (rules : validateRules) (found : Bool) (part0 : String) :
    validateRules × Bool :=
  let part := trimSpace part0
  if part = "" then (rules, found)
  else if part = "required" then
    (⟨true, rules.Min, rules.Max, rules.OneOf⟩, true)
  else if hasPrefixStr "min=" part then
    match parseFloatQ (trimSpace (dropChars 4 part)) with
    | some f => (⟨rules.Required, some f, rules.Max, rules.OneOf⟩, true)
    | none => (rules, found)
  else if hasPrefixStr "max=" part then
    match parseFloatQ (trimSpace (dropChars 4 part)) with
    | some f => (⟨rules.Required, rules.Min, some f, rules.OneOf⟩, true)
    | none => (rules, found)
  else if hasPrefixStr "oneof=" part then
    let opts := splitOnChar '|' (dropChars 6 part)
    let filtered := (opts.map trimSpace).filter (fun o => o ≠ "")
    if filtered ≠ [] then (⟨rules.Required, rules.Min, rules.Max, filtered⟩, true)
    else (rules, found)
  else (rules, found)

/-- Models parseValidateComment from main.go: trim, strip one leading
comment marker, require the validate: marker, split the body on commas and
fold the rule tokens.  Returns the rules and whether any recognized token
was found. -/
def parseValidateComment (comment0 : String) : validateRules × Bool :=
  let comment1 := trimSpace comment0
  if comment1 = "" then (validateRules.empty, false)
  else
    let comment2 :=
      if hasPrefixStr "#" comment1 then trimSpace (dropChars 1 comment1) else comment1
    if ¬ hasPrefixStr "validate:" comment2 then (validateRules.empty, false)
    else
      let body := trimSpace (dropChars 9 comment2)
      if body = "" then (validateRules.empty, false)
      else
        (splitOnChar ',' body).foldl (fun acc part => applyRulePart acc.1 acc.2 part)
          (validateRules.empty, false)

/-- Models inferGoTypeFromNode from main.go. -/
def inferGoTypeFromNode (n : YNode) : String :=
  match n with
  | .scalar tag _ _ =>
    if tag = "!!bool" then "bool"
    else if tag = "!!int" then "int"
    else if tag = "!!float" then "float64"
    else "string"
  | _ => "any"

/-- The loop body of walkMappingValidations over the key/value pairs of a
mapping node: for each pair, compile the trailing comment of the value into
at most one fieldValidation, then recurse into the value when it is itself
a mapping node (and only then), accumulating in traversal order. -/
def walkPairs : List (String × YNode) → String → String → List fieldValidation
  | [], _, _ => []
  | (key, valNode) :: rest, pfx, gpfx =>
    let yamlPath := if pfx = "" then key else pfx ++ "." ++ key
    let goExpr := gpfx ++ "." ++ toExportedName key
    let own :=
      match parseValidateComment valNode.comment with
      | (rules, true) =>
        [⟨goExpr, yamlPath, inferGoTypeFromNode valNode,
          rules.Required, rules.Min, rules.Max, rules.OneOf⟩]
      | (_, false) => []
    let children :=
      match valNode with
      | .mapping centries _ => walkPairs centries yamlPath goExpr
      | _ => []
    own ++ children ++ walkPairs rest pfx gpfx
termination_by pairs _ _ => sizeOf pairs
decreasing_by
  · simp only [List.cons.sizeOf_spec, Prod.mk.sizeOf_spec, YNode.mapping.sizeOf_spec]
    omega
  · simp only [List.cons.sizeOf_spec]
    omega

/-- Models walkMappingValidations from main.go: only mapping nodes produce
entries. -/
def walkMappingValidations (node : YNode) (pfx gpfx : String) : List fieldValidation :=
  match node with
  | .mapping entries _ => walkPairs entries pfx gpfx
  | _ => []

/-- Models collectValidations from main.go: walk the document top mapping
with the empty path prefix and the method receiver as expression prefix.
(The rootName parameter of the Go function is unused there.) -/
def collectValidations (top : YNode) : List fieldValidation :=
  walkMappingValidations top "" "c"

/-! ## Validate() emission (writeValidateMethod in main.go) -/

/-- The required check emitted for one entry: only string, int and float64
kinds produce a check (the Go switch has no default arm). -/
def requiredCheckStr (v : fieldValidation) : String :=
  if v.Required then
    if v.GoType = "string" then
      "    if " ++ v.GoExpr ++ " == \"\" \x7b\n        return fmt.Errorf(\"" ++
        v.YAMLPath ++ " is required\")\n    \x7d\n"
    else if v.GoType = "int" || v.GoType = "float64" then
      "    if " ++ v.GoExpr ++ " == 0 \x7b\n        return fmt.Errorf(\"" ++
        v.YAMLPath ++ " is required\")\n    \x7d\n"
    else ""
  else ""

/-- The min and max checks emitted for one entry: only int and float64
kinds produce checks. -/
def minMaxCheckStr (v : fieldValidation) : String :=
  if (v.Min.isSome || v.Max.isSome) && (v.GoType = "int" || v.GoType = "float64") then
    (match v.Min with
     | some mn =>
       "    if " ++ v.GoExpr ++ " < " ++ fmtFloat mn ++
         " \x7b\n        return fmt.Errorf(\"" ++ v.YAMLPath ++ " must be >= " ++
         fmtFloat mn ++ "\")\n    \x7d\n"
     | none => "") ++
    (match v.Max with
     | some mx =>
       "    if " ++ v.GoExpr ++ " > " ++ fmtFloat mx ++
         " \x7b\n        return fmt.Errorf(\"" ++ v.YAMLPath ++ " must be <= " ++
         fmtFloat mx ++ "\")\n    \x7d\n"
     | none => "")
  else ""

/-- The one-of check emitted for one entry: only the string kind produces a
check. -/
def oneOfCheckStr (v : fieldValidation) : String :=
  if v.OneOf ≠ [] && v.GoType = "string" then
    "    switch " ++ v.GoExpr ++ " \x7b\n" ++
      String.join (v.OneOf.map (fun opt => "    case \"" ++ opt ++ "\":\n")) ++
      "    default:\n        return fmt.Errorf(\"" ++ v.YAMLPath ++
      " must be one of [" ++ joinSep " " v.OneOf ++ "]\")\n    \x7d\n"
  else ""

/-- The whole per-entry block of the loop body of writeValidateMethod. -/
def entryChecks (v : fieldValidation) : String :=
  requiredCheckStr v ++ minMaxCheckStr v ++ oneOfCheckStr v

/-- Models writeValidateMethod from main.go: the method header, the checks
of every entry in list order accumulated left to right, and the trailing
return. -/
def writeValidateMethod (rootName : String) (vals : List fieldValidation) : String :=
  vals.foldl (fun acc v => acc ++ entryChecks v)
    ("func (c " ++ rootName ++ ") Validate() error \x7b\n") ++
    "    return nil\n\x7d\n"

/-! ## Concrete rule-grammar evaluations -/

theorem parseFloatQ_one : parseFloatQ "1" = some 1 := by
  have h : parseFloatQ "1" = some ((1 : ℚ) * ((digitsVal ['1'] : ℕ) : ℚ)) := rfl
  rw [h, show digitsVal ['1'] = 1 from rfl]
  norm_num

theorem parseFloatQ_65535 : parseFloatQ "65535" = some 65535 := by
  have h : parseFloatQ "65535" =
      some ((1 : ℚ) * ((digitsVal ['6', '5', '5', '3', '5'] : ℕ) : ℚ)) := rfl
  rw [h, show digitsVal ['6', '5', '5', '3', '5'] = 65535 from rfl]
  norm_num

theorem parseValidateComment_port :
    parseValidateComment "validate:required,min=1,max=65535" =
      (⟨true, some 1, some 65535, []⟩, true) := by
  have h : parseValidateComment "validate:required,min=1,max=65535" =
      (⟨true, parseFloatQ "1", parseFloatQ "65535", []⟩, true) := rfl
  rw [h, parseFloatQ_one, parseFloatQ_65535]

theorem parseValidateComment_minstr :
    parseValidateComment "validate:min=1" = (⟨false, some 1, none, []⟩, true) := by
  have h : parseValidateComment "validate:min=1" =
      (⟨false, parseFloatQ "1", none, []⟩, true) := rfl
  rw [h, parseFloatQ_one]

/-! ## Traversal-order lemmas for the validation compiler -/

theorem walkPairs_append (l₁ l₂ : List (String × YNode)) (pfx gpfx : String) :
    walkPairs (l₁ ++ l₂) pfx gpfx = walkPairs l₁ pfx gpfx ++ walkPairs l₂ pfx gpfx := by
  induction l₁ with
  | nil =>
    have h0 : walkPairs [] pfx gpfx = [] := by rw [walkPairs]
    rw [List.nil_append, h0, List.nil_append]
  | cons p rest ih =>
    obtain ⟨key, valNode⟩ := p
    rw [List.cons_append]
    cases valNode <;>
      (simp only [walkPairs]; rw [ih]; simp [List.append_assoc])

/-- C5: for every field whose trailing same-line comment is exactly
validate:required,min=1,max=65535 and whose value is integer-kind,
validation compilation produces exactly one FieldValidation entry for that
field, with required true, min 1 and max 65535: wherever such a pair occurs
in a mapping, the compiled list is the surrounding compilation with exactly
the one stated entry for that field in between. -/
theorem walkPairs_port_comment (pre post : List (String × YNode))
    (key val pfx gpfx : String) :
    walkPairs
        (pre ++ (key, YNode.scalar "!!int" val "validate:required,min=1,max=65535") :: post)
        pfx gpfx =
      walkPairs pre pfx gpfx ++
        ⟨gpfx ++ "." ++ toExportedName key,
          (if pfx = "" then key else pfx ++ "." ++ key), "int",
          true, some 1, some 65535, []⟩ ::
        walkPairs post pfx gpfx := by
  rw [walkPairs_append]
  congr 1
  simp only [walkPairs, YNode.comment, parseValidateComment_port]
  rfl

/-! ## Kind filtering at emission -/

/-- Removal of the rule kinds the emitted checks ignore for an entry of the
given inferred kind: min and max when the kind is not numeric, one-of when
the kind is not string. -/
def scrubUnsupported (v : fieldValidation) : fieldValidation :=
  ⟨v.GoExpr, v.YAMLPath, v.GoType, v.Required,
   (if v.GoType = "int" || v.GoType = "float64" then v.Min else none),
   (if v.GoType = "int" || v.GoType = "float64" then v.Max else none),
   (if v.GoType = "string" then v.OneOf else [])⟩

theorem entryChecks_scrubUnsupported (v : fieldValidation) :
    entryChecks (scrubUnsupported v) = entryChecks v := by
  simp only [entryChecks, scrubUnsupported, requiredCheckStr, minMaxCheckStr, oneOfCheckStr]
  by_cases hint : v.GoType = "int" <;> by_cases hflt : v.GoType = "float64" <;>
    by_cases hstr : v.GoType = "string" <;>
      simp [hint, hflt, hstr]

/-- C3 (amended): the compiled FieldValidation list keeps every recognized
rule regardless of the inferred kind, and the kind filtering happens at
emission: dropping the min and max bounds of every entry whose kind is not
numeric and the one-of set of every entry whose kind is not string leaves
the emitted Validate method byte-for-byte unchanged, so unsupported rule
kinds contribute no check and no report. -/
theorem writeValidateMethod_scrubUnsupported (rootName : String)
    (vals : List fieldValidation) :
    writeValidateMethod rootName (vals.map scrubUnsupported) =
      writeValidateMethod rootName vals := by
  unfold writeValidateMethod
  rw [List.foldl_map]
  have h : (fun (acc : String) v => acc ++ entryChecks (scrubUnsupported v)) =
      (fun (acc : String) v => acc ++ entryChecks v) := by
    funext acc v
    rw [entryChecks_scrubUnsupported]
  rw [h]

/-- C3 (counterexample to the claim as stated): a min bound on a
string-kind field still produces a FieldValidation entry carrying that
bound, so entries are not restricted to fields whose kind supports the rule
kind present; only the emitted checks are. -/
theorem walkPairs_min_on_string_emits_entry :
    walkPairs [("name", YNode.scalar "!!str" "x" "validate:min=1")] "" "c" =
      [⟨"c.Name", "name", "string", false, some 1, none, []⟩] := by
  simp only [walkPairs, YNode.comment, parseValidateComment_minstr]
  rfl

/-- Removal of the required flag on the entries whose kind gets no required
check emitted: the bool kind and the non-scalar any kind. -/
def scrubUnenforcedRequired (v : fieldValidation) : fieldValidation :=
  ⟨v.GoExpr, v.YAMLPath, v.GoType,
   (if v.GoType = "bool" || v.GoType = "any" then false else v.Required),
   v.Min, v.Max, v.OneOf⟩

theorem entryChecks_scrubUnenforcedRequired (v : fieldValidation) :
    entryChecks (scrubUnenforcedRequired v) = entryChecks v := by
  simp only [entryChecks, scrubUnenforcedRequired, requiredCheckStr, minMaxCheckStr,
    oneOfCheckStr]
  by_cases hb : v.GoType = "bool" <;> by_cases ha : v.GoType = "any" <;>
    simp [hb, ha]

/-- C9: a required rule on an entry whose inferred kind is bool, or any
(the kind assigned to every non-scalar node, in particular mappings and
sequences), contributes no check at all to the generated Validate body:
clearing the required flag of every such entry leaves the emitted method
byte-for-byte unchanged, and the emitted required checks cover only the
string, int and float64 kinds. -/
theorem writeValidateMethod_required_unenforced :
    (∀ (rootName : String) (vals : List fieldValidation),
      writeValidateMethod rootName (vals.map scrubUnenforcedRequired) =
        writeValidateMethod rootName vals) ∧
    (∀ entries c, inferGoTypeFromNode (YNode.mapping entries c) = "any") ∧
    (∀ items c, inferGoTypeFromNode (YNode.sequence items c) = "any") ∧
    (∀ v c, inferGoTypeFromNode (YNode.scalar "!!bool" v c) = "bool") := by
  refine ⟨?_, fun _ _ => rfl, fun _ _ => rfl, fun _ _ => rfl⟩
  intro rootName vals
  unfold writeValidateMethod
  rw [List.foldl_map]
  have h : (fun (acc : String) v => acc ++ entryChecks (scrubUnenforcedRequired v)) =
      (fun (acc : String) v => acc ++ entryChecks v) := by
    funext acc v
    rw [entryChecks_scrubUnenforcedRequired]
  rw [h]

/-! ## Document order of compiled validations -/

/-- Follows the spec wording for C7: the pre-order document-order list of
the dotted paths of exactly the fields whose trailing comment carries a
recognized validation rule, written independently of the compiled records
so that the compiled order can be compared against it. -/
def annotatedPathsPairs : List (String × YNode) → String → List String
  | [], _ => []
  | (key, valNode) :: rest, pfx =>
    let yamlPath := if pfx = "" then key else pfx ++ "." ++ key
    (if (parseValidateComment valNode.comment).2 then [yamlPath] else []) ++
    (match valNode with
     | .mapping centries _ => annotatedPathsPairs centries yamlPath
     | _ => []) ++
    annotatedPathsPairs rest pfx
termination_by pairs _ => sizeOf pairs
decreasing_by
  · simp only [List.cons.sizeOf_spec, Prod.mk.sizeOf_spec, YNode.mapping.sizeOf_spec]
    omega
  · simp only [List.cons.sizeOf_spec]
    omega

theorem walkPairs_paths (entries : List (String × YNode)) (pfx gpfx : String) :
    (walkPairs entries pfx gpfx).map fieldValidation.YAMLPath =
      annotatedPathsPairs entries pfx := by
  induction entries, pfx, gpfx using walkPairs.induct with
  | case1 pfx gpfx =>
    rw [show walkPairs [] pfx gpfx = [] from by rw [walkPairs],
        show annotatedPathsPairs [] pfx = [] from by rw [annotatedPathsPairs]]
    rfl
  | case2 key valNode rest pfx gpfx yamlPath goExpr ihc ihr =>
    rcases hpc : parseValidateComment valNode.comment with ⟨rules, found⟩
    cases valNode with
    | scalar t v c =>
      simp only [walkPairs, annotatedPathsPairs, YNode.comment] at hpc ⊢
      simp only [hpc]
      cases found <;> simp [ihr]
    | mapping centries c =>
      have ihc2 : (walkPairs centries (if pfx = "" then key else pfx ++ "." ++ key)
          (gpfx ++ "." ++ toExportedName key)).map fieldValidation.YAMLPath =
          annotatedPathsPairs centries (if pfx = "" then key else pfx ++ "." ++ key) := ihc
      simp only [walkPairs, annotatedPathsPairs, YNode.comment] at hpc ⊢
      simp only [hpc]
      cases found <;> simp [ihr, ihc2]
    | sequence xs c =>
      simp only [walkPairs, annotatedPathsPairs, YNode.comment] at hpc ⊢
      simp only [hpc]
      cases found <;> simp [ihr]

/-- The concatenation of the per-entry check blocks in list order. -/
def concatChecks : List fieldValidation → String
  | [] => ""
  | v :: rest => entryChecks v ++ concatChecks rest

theorem foldl_entryChecks (l : List fieldValidation) (init : String) :
    l.foldl (fun acc v => acc ++ entryChecks v) init = init ++ concatChecks l := by
  induction l generalizing init with
  | nil => exact (str_append_empty init).symm
  | cons v rest ih =>
    rw [List.foldl_cons, ih, concatChecks, String.append_assoc]

/-- C7: the sequence of FieldValidation entries produced by validation
compilation is in pre-order traversal document order (the paths of the
compiled list are exactly the pre-order annotated paths, not sorted), and
the emitted validation procedure generates its checks in exactly that list
order: the method body is the concatenation of the per-entry blocks in
list order between the fixed header and footer. -/
theorem validation_order_preserved :
    (∀ (entries : List (String × YNode)) (pfx gpfx : String),
      (walkPairs entries pfx gpfx).map fieldValidation.YAMLPath =
        annotatedPathsPairs entries pfx) ∧
    (∀ (rootName : String) (vals : List fieldValidation),
      writeValidateMethod rootName vals =
        "func (c " ++ rootName ++ ") Validate() error \x7b\n" ++
          concatChecks vals ++ "    return nil\n\x7d\n") := by
  refine ⟨walkPairs_paths, ?_⟩
  intro rootName vals
  unfold writeValidateMethod
  rw [foldl_entryChecks]

theorem expandEnv_empty_default_strict_witness :
    ('\x7d' ∉ "FOO".data ∧ breakColonDash "FOO".data = none) ∧
    expandEnv (fun _ => none) "$\x7bFOO:-\x7d" true = Except.ok "" := by
  refine ⟨⟨by decide, by rfl⟩, ?_⟩
  exact expandEnv_empty_default_strict (fun _ => none) "FOO" (by decide) (by rfl)

/-! ## Decoded value model and type registry (main.go)

Decoded YAML values are the `any` values the generator walks.  A Go map is
an unordered collection iterated only through explicit sorting, so a
decoded mapping is an association list whose order carries no meaning;
determinism under reordering is proved in the claims below.  The null
constructor stands for every decoded value that reaches the default arm of
the type switch in goTypeExprWithRegistry.
-/

/-- Decoded YAML value. -/
inductive Value where
  | vbool (b : Bool)
  | vint (n : Int)
  | vfloat (q : ℚ)
  | vstr (s : String)
  | vlist (xs : List Value)
  | vmap (entries : List (String × Value))
  | vnull

theorem perm_sizeOf_eq {α} [SizeOf α] {l₁ l₂ : List α} (h : l₁.Perm l₂) :
    sizeOf l₁ = sizeOf l₂ := by
  induction h with
  | nil => rfl
  | cons x h2 ih => simp only [List.cons.sizeOf_spec, ih]
  | swap x y l =>
    simp only [List.cons.sizeOf_spec]
    omega
  | trans h1 h2 ih1 ih2 => omega

/-- Models sortedKeys from main.go: the keys of a decoded mapping sorted
lexicographically. -/
def sortedKeys (m : List (String × Value)) : List String :=
  (m.map Prod.fst).mergeSort (fun a b => a ≤ b)

/-- The iteration of a decoded mapping in sortedKeys order: the entries
sorted by key.  This models the only loop shape the source uses on decoded
mappings (`for _, key := range sortedKeys(m) { val := m[key] ... }`;
decoded mappings have distinct keys, so indexing by each sorted key visits
exactly the entries sorted by key). -/
def sortEntries (m : List (String × Value)) : List (String × Value) :=
  m.mergeSort (fun a b => a.1 ≤ b.1)

/-- Models the typeRegistry struct of main.go.  The Go maps are association
lists written most recent first; usedNames is the membership domain of the
Go set map. -/
structure typeRegistry where
  rootName : String
  byYAMLPath : List (String × String)
  pathByType : List (String × String)
  segmentsByYAML : List (String × List String)
  defsByType : List (String × List (String × Value))
  usedNames : List String

/-- Models newTypeRegistry: empty maps, usedNames seeded with the root
name. -/
def newTypeRegistry (rootName : String) : typeRegistry :=
  ⟨rootName, [], [], [], [], [rootName]⟩

/-- The candidate name computed by the first half of deriveTypeName in
main.go: concatenate the nonempty path segments, fall back to Section for
an empty base, append the Config suffix when absent, and append the
Section suffix when the candidate equals the root name. -/
def deriveCandidate (rootName : String) (pathSegments : List String) : String :=
  let baseStr0 := String.join (pathSegments.filter (fun seg => seg ≠ ""))
  let baseStr := if baseStr0 = "" then "Section" else baseStr0
  let t1 := if baseStr.endsWith "Config" then baseStr else baseStr ++ "Config"
  if t1 = rootName then t1 ++ "Section" else t1

/-- The name computed by deriveTypeName, as a function of the root name and
the used-name set it reads: the candidate, disambiguated with the least
free numeric suffix starting at 2 when it is already used (the Go loop;
its termination is free_suffix_exists). -/
def deriveName (rootName : String) (used : List String) (pathSegments : List String) :
    String :=
  let t2 := deriveCandidate rootName pathSegments
  if t2 ∈ used then t2 ++ itoa (2 + Nat.find (free_suffix_exists used t2))
  else t2

/-- Models deriveTypeName from main.go.  The derived name is marked used,
mirroring the usedNames write at the end of the Go function. -/
def deriveTypeName (r : typeRegistry) (pathSegments : List String) : String × typeRegistry :=
  (deriveName r.rootName r.usedNames pathSegments,
   ⟨r.rootName, r.byYAMLPath, r.pathByType, r.segmentsByYAML, r.defsByType,
    deriveName r.rootName r.usedNames pathSegments :: r.usedNames⟩)

mutual

/-- Models goTypeExprWithRegistry from main.go: the Go type expression of a
decoded value, registering named types for mappings through the registry.
The boolean is the second return of the Go method (false marks the
unknown cases: the empty list and the default arm). -/
def goTypeExprWithRegistry (r : typeRegistry) (v : Value) (yamlPath : String)
    (pathSegments : List String) : (String × Bool) × typeRegistry :=
  match v with
  | .vmap m =>
    let nr := ensureMapType r pathSegments yamlPath m
    ((nr.1, true), nr.2)
  | .vlist [] => (("[]any", false), r)
  | .vlist (x :: _) =>
    let er := goTypeExprWithRegistry r x (yamlPath ++ "[]") (pathSegments ++ ["Item"])
    (("[]" ++ er.1.1, true), er.2)
  | .vbool _ => (("bool", true), r)
  | .vint _ => (("int", true), r)
  | .vfloat _ => (("float64", true), r)
  | .vstr _ => (("string", true), r)
  | .vnull => (("any", false), r)
termination_by (sizeOf v, 0)
decreasing_by
  · apply Prod.Lex.left
    simp only [Value.vmap.sizeOf_spec]
    omega
  · apply Prod.Lex.left
    simp only [Value.vlist.sizeOf_spec, List.cons.sizeOf_spec]
    omega

/-- Models ensureMapType from main.go: return the memoized name when the
path is registered, otherwise derive a fresh name, register the path, its
segments and its definition, and recurse into the children in sorted key
order. -/
def ensureMapType (r : typeRegistry) (pathSegments : List String) (yamlPath : String)
    (m : List (String × Value)) : String × typeRegistry :=
  match r.byYAMLPath.lookup yamlPath with
  | some name => (name, r)
  | none =>
    let dr := deriveTypeName r pathSegments
    let r1 : typeRegistry :=
      ⟨dr.2.rootName, (yamlPath, dr.1) :: dr.2.byYAMLPath,
       (dr.1, yamlPath) :: dr.2.pathByType,
       (yamlPath, pathSegments) :: dr.2.segmentsByYAML,
       (dr.1, m) :: dr.2.defsByType, dr.2.usedNames⟩
    let r2 := collectSortedChildren r1 (sortEntries m) yamlPath pathSegments
    (dr.1, r2)
termination_by (sizeOf m, 1)
decreasing_by
  · have hp : sizeOf (sortEntries m) = sizeOf m :=
      perm_sizeOf_eq (List.mergeSort_perm m _)
    rw [hp]
    exact Prod.Lex.right _ (by omega)

/-- The recursion loop of ensureMapType over the children of a mapping in
sorted key order. -/
def collectSortedChildren (r : typeRegistry) (pairs : List (String × Value))
    (yamlPath : String) (pathSegments : List String) : typeRegistry :=
  match pairs with
  | [] => r
  | (key, val) :: rest =>
    let er := goTypeExprWithRegistry r val (yamlPath ++ "." ++ key)
      (pathSegments ++ [toExportedName key])
    collectSortedChildren er.2 rest yamlPath pathSegments
termination_by (sizeOf pairs, 0)
decreasing_by
  · apply Prod.Lex.left
    simp only [List.cons.sizeOf_spec, Prod.mk.sizeOf_spec]
    omega
  · apply Prod.Lex.left
    simp only [List.cons.sizeOf_spec, Prod.mk.sizeOf_spec]
    omega

end

/-- The loop of collectFromRoot over the sorted root entries: each root key
becomes a path of its own with one segment. -/
def collectFromRootSorted (r : typeRegistry) : List (String × Value) → typeRegistry
  | [] => r
  | (key, val) :: rest =>
    let er := goTypeExprWithRegistry r val key [toExportedName key]
    collectFromRootSorted er.2 rest

/-- Models collectFromRoot from main.go. -/
def collectFromRoot (r : typeRegistry) (m : List (String × Value)) : typeRegistry :=
  collectFromRootSorted r (sortEntries m)

/-- Models sortedTypeNames from main.go. -/
def sortedTypeNames (r : typeRegistry) : List String :=
  (r.defsByType.map Prod.fst).mergeSort (fun a b => a ≤ b)

/-- Models strings.Repeat of the four-space indent unit. -/
def indentStr (n : Nat) : String := String.join (List.replicate n "    ")

/-- The field loop of writeStruct: one line per field in sorted key order,
with the type expression computed through the registry. -/
def writeStructFields (r : typeRegistry) (baseSegments : List String) (yamlPath : String)
    (indent : Nat) : List (String × Value) → String × typeRegistry
  | [] => ("", r)
  | (key, val) :: rest =>
    let er := goTypeExprWithRegistry r val (yamlPath ++ "." ++ key)
      (baseSegments ++ [toExportedName key])
    let line := indentStr (indent + 1) ++ toExportedName key ++ " " ++ er.1.1 ++
      " `yaml:\"" ++ key ++ "\"`\n"
    let sr := writeStructFields er.2 baseSegments yamlPath indent rest
    (line ++ sr.1, sr.2)

/-- Models writeStruct from main.go. -/
def writeStruct (r : typeRegistry) (name yamlPath : String)
    (m : List (String × Value)) (indent : Nat) : String × typeRegistry :=
  let istr := indentStr indent
  let baseSegments := (r.segmentsByYAML.lookup yamlPath).getD []
  let fr := writeStructFields r baseSegments yamlPath indent (sortEntries m)
  (istr ++ "type " ++ name ++ " struct \x7b\n" ++ fr.1 ++ istr ++ "\x7d\n", fr.2)

/-- The field loop of writeRootStruct. -/
def writeRootStructFields (r : typeRegistry) : List (String × Value) → String × typeRegistry
  | [] => ("", r)
  | (key, val) :: rest =>
    let er := goTypeExprWithRegistry r val key [toExportedName key]
    let line := "    " ++ toExportedName key ++ " " ++ er.1.1 ++
      " `yaml:\"" ++ key ++ "\"`\n"
    let sr := writeRootStructFields er.2 rest
    (line ++ sr.1, sr.2)

/-- Models writeRootStruct from main.go. -/
def writeRootStruct (r : typeRegistry) (name : String) (m : List (String × Value)) :
    String × typeRegistry :=
  let fr := writeRootStructFields r (sortEntries m)
  ("type " ++ name ++ " struct \x7b\n" ++ fr.1 ++ "\x7d\n", fr.2)

/-- Models requiredImports from main.go. -/
def requiredImports (validations : List fieldValidation) : List String :=
  if validations.isEmpty then [] else ["fmt"]

/-- The import section of generateGoCode (single imports use the plain
form; the multi-import block mirrors the loop). -/
def importBlock : List String → String
  | [] => ""
  | [imp] => "import \"" ++ imp ++ "\"\n\n"
  | imps =>
    "import (\n" ++ String.join (imps.map (fun imp => "    \"" ++ imp ++ "\"\n")) ++ ")\n\n"

/-- The struct emission loop of generateGoCode over the sorted type names,
each declaration followed by a blank line. -/
def emitTypes (r : typeRegistry) : List String → String × typeRegistry
  | [] => ("", r)
  | typeName :: rest =>
    let yamlPath := (r.pathByType.lookup typeName).getD ""
    let typeMap := (r.defsByType.lookup typeName).getD []
    let wr := writeStruct r typeName yamlPath typeMap 0
    let er := emitTypes wr.2 rest
    (wr.1 ++ "\n\n" ++ er.1, er.2)

/-- Models generateGoCode from main.go: header and package clause, imports,
the registered type declarations in lexicographic name order, the root
struct, and the Validate method when any validations were compiled. -/
def generateGoCode (pkgName rootName : String) (m : List (String × Value))
    (validations : List fieldValidation) : String :=
  let header := "// Code generated by gonfig gen-go; DO NOT EDIT.\n\n" ++
    "package " ++ pkgName ++ "\n\n"
  let imports := importBlock (requiredImports validations)
  let r1 := collectFromRoot (newTypeRegistry rootName) m
  let tr := emitTypes r1 (sortedTypeNames r1)
  let rr := writeRootStruct tr.2 rootName m
  let valPart :=
    if validations.isEmpty then ""
    else "\n\n" ++ writeValidateMethod rootName validations
  header ++ imports ++ tr.1 ++ rr.1 ++ valPart

/-! ## Uniqueness of derived type names -/

theorem deriveName_fresh (rootName : String) (used : List String) (segs : List String) :
    deriveName rootName used segs ∉ used := by
  unfold deriveName
  dsimp only
  split
  next hin => exact Nat.find_spec (free_suffix_exists used (deriveCandidate rootName segs))
  next hout => exact hout

theorem deriveTypeName_fresh (r : typeRegistry) (segs : List String) :
    (deriveTypeName r segs).1 ∉ r.usedNames :=
  deriveName_fresh r.rootName r.usedNames segs

theorem deriveTypeName_state (r : typeRegistry) (segs : List String) :
    (deriveTypeName r segs).2 =
      ⟨r.rootName, r.byYAMLPath, r.pathByType, r.segmentsByYAML, r.defsByType,
        (deriveTypeName r segs).1 :: r.usedNames⟩ := rfl

/-- The names assigned to paths by the registry. -/
def assignedNames (r : typeRegistry) : List String := r.byYAMLPath.map Prod.snd

/-- The registry invariant for a generation run with the given root name:
the root name is pinned, every assigned name is marked used, the assigned
names are pairwise distinct, and the root name is marked used but never
assigned. -/
def regInv (root : String) (r : typeRegistry) : Prop :=
  r.rootName = root ∧ (assignedNames r).Nodup ∧
    (∀ n ∈ assignedNames r, n ∈ r.usedNames) ∧
    root ∈ r.usedNames ∧ root ∉ assignedNames r

theorem regInv_preserved (root : String) (N : Nat) :
    (∀ (r : typeRegistry) (v : Value) (yamlPath : String) (segs : List String),
      2 * sizeOf v ≤ N → regInv root r →
        regInv root (goTypeExprWithRegistry r v yamlPath segs).2) ∧
    (∀ (r : typeRegistry) (segs : List String) (yamlPath : String)
        (m : List (String × Value)),
      2 * sizeOf m + 1 ≤ N → regInv root r →
        regInv root (ensureMapType r segs yamlPath m).2) ∧
    (∀ (r : typeRegistry) (pairs : List (String × Value)) (yamlPath : String)
        (segs : List String),
      2 * sizeOf pairs ≤ N → regInv root r →
        regInv root (collectSortedChildren r pairs yamlPath segs)) := by
  induction N using Nat.strong_induction_on with
  | _ N ih =>
    refine ⟨?_, ?_, ?_⟩
    · intro r v yamlPath segs hN hInv
      cases v with
      | vmap m =>
        simp only [Value.vmap.sizeOf_spec] at hN
        have h2 := (ih (N - 1) (by omega)).2.1 r segs yamlPath m (by omega) hInv
        simp only [goTypeExprWithRegistry]
        exact h2
      | vlist xs =>
        cases xs with
        | nil =>
          simp only [goTypeExprWithRegistry]
          exact hInv
        | cons x rest =>
          simp only [Value.vlist.sizeOf_spec, List.cons.sizeOf_spec] at hN
          have h2 := (ih (N - 1) (by omega)).1 r x (yamlPath ++ "[]") (segs ++ ["Item"])
            (by omega) hInv
          simp only [goTypeExprWithRegistry]
          exact h2
      | vbool b => simpa only [goTypeExprWithRegistry] using hInv
      | vint n => simpa only [goTypeExprWithRegistry] using hInv
      | vfloat q => simpa only [goTypeExprWithRegistry] using hInv
      | vstr s => simpa only [goTypeExprWithRegistry] using hInv
      | vnull => simpa only [goTypeExprWithRegistry] using hInv
    · intro r segs yamlPath m hN hInv
      rcases hlk : r.byYAMLPath.lookup yamlPath with _ | name
      · -- miss: derive, insert, recurse into the children
        obtain ⟨hroot, hnd, hmem, hrootU, hrootA⟩ := hInv
        have hfresh := deriveTypeName_fresh r segs
        have hInv1 : regInv root
            ⟨(deriveTypeName r segs).2.rootName,
             (yamlPath, (deriveTypeName r segs).1) :: (deriveTypeName r segs).2.byYAMLPath,
             ((deriveTypeName r segs).1, yamlPath) :: (deriveTypeName r segs).2.pathByType,
             (yamlPath, segs) :: (deriveTypeName r segs).2.segmentsByYAML,
             ((deriveTypeName r segs).1, m) :: (deriveTypeName r segs).2.defsByType,
             (deriveTypeName r segs).2.usedNames⟩ := by
          rw [deriveTypeName_state]
          refine ⟨hroot, ?_, ?_, ?_, ?_⟩
          · simp only [assignedNames, List.map_cons, List.nodup_cons]
            exact ⟨fun hc => hfresh (hmem _ hc), hnd⟩
          · intro n hn
            simp only [assignedNames, List.map_cons, List.mem_cons] at hn
            rcases hn with rfl | hn
            · exact List.mem_cons_self _ _
            · exact List.mem_cons_of_mem _ (hmem _ hn)
          · exact List.mem_cons_of_mem _ hrootU
          · simp only [assignedNames, List.map_cons, List.mem_cons]
            rintro (rfl | hc)
            · exact hfresh hrootU
            · exact hrootA hc
        have hsz : 2 * sizeOf (sortEntries m) ≤ N - 1 := by
          have hs : sizeOf (sortEntries m) = sizeOf m :=
            perm_sizeOf_eq (List.mergeSort_perm m _)
          omega
        have h2 := (ih (N - 1) (by omega)).2.2 _ (sortEntries m) yamlPath segs hsz hInv1
        simp only [ensureMapType, hlk]
        exact h2
      · simp only [ensureMapType, hlk]
        exact hInv
    · intro r pairs yamlPath segs hN hInv
      cases pairs with
      | nil =>
        simp only [collectSortedChildren]
        exact hInv
      | cons p rest =>
        obtain ⟨key, val⟩ := p
        simp only [List.cons.sizeOf_spec, Prod.mk.sizeOf_spec] at hN
        have h1 := (ih (N - 1) (by omega)).1 r val (yamlPath ++ "." ++ key)
          (segs ++ [toExportedName key]) (by omega) hInv
        have h2 := (ih (N - 1) (by omega)).2.2
          (goTypeExprWithRegistry r val (yamlPath ++ "." ++ key)
            (segs ++ [toExportedName key])).2 rest yamlPath segs (by omega) h1
        simp only [collectSortedChildren]
        exact h2

theorem goType_regInv (root : String) (r : typeRegistry) (v : Value)
    (yamlPath : String) (segs : List String) (hInv : regInv root r) :
    regInv root (goTypeExprWithRegistry r v yamlPath segs).2 :=
  (regInv_preserved root (2 * sizeOf v)).1 r v yamlPath segs le_rfl hInv

theorem collectFromRootSorted_regInv (root : String) (r : typeRegistry)
    (l : List (String × Value)) (hInv : regInv root r) :
    regInv root (collectFromRootSorted r l) := by
  induction l generalizing r with
  | nil => exact hInv
  | cons p rest ih =>
    obtain ⟨key, val⟩ := p
    simp only [collectFromRootSorted]
    exact ih _ (goType_regInv root r val key [toExportedName key] hInv)

/-- C1: for every input document and root type name, every type name
assigned by the type registry during one generation run is distinct from
every other assigned name and from the root name: the assigned names after
the collection traversal are pairwise distinct and never equal to the root
name, and the root name is reserved in usedNames from the start (before
any nested name is derived). -/
theorem registry_names_unique (rootName : String) (m : List (String × Value)) :
    (((collectFromRoot (newTypeRegistry rootName) m).byYAMLPath.map Prod.snd).Nodup ∧
      rootName ∉ (collectFromRoot (newTypeRegistry rootName) m).byYAMLPath.map Prod.snd) ∧
    (newTypeRegistry rootName).usedNames = [rootName] := by
  have h0 : regInv rootName (newTypeRegistry rootName) := by
    refine ⟨rfl, List.nodup_nil, ?_, ?_, ?_⟩
    · intro n hn
      simp [assignedNames, newTypeRegistry] at hn
    · simp [newTypeRegistry]
    · simp [assignedNames, newTypeRegistry]
  have h1 := collectFromRootSorted_regInv rootName (newTypeRegistry rootName)
    (sortEntries m) h0
  exact ⟨⟨h1.2.1, h1.2.2.2.2⟩, rfl⟩

/-- C4: type inference on an empty list node returns the unknown result:
the generated type expression is the any-based list type with the known
flag false (the element type cannot be inferred), and the registry is left
untouched. -/
theorem goTypeExpr_empty_list (r : typeRegistry) (yamlPath : String)
    (pathSegments : List String) :
    goTypeExprWithRegistry r (Value.vlist []) yamlPath pathSegments =
      (("[]any", false), r) := by
  rw [goTypeExprWithRegistry]

/-- C8: ensureMapType is idempotent per path: whenever the registry already
assigns a name to the document path, calling ensureMapType again on that
path returns the previously assigned name and leaves the whole registry
(pathToName, nameToDefinition, usedNames and all other fields) unchanged,
for every mapping argument: the memoization is keyed by path, not by the
structural shape of the mapping. -/
theorem ensureMapType_idempotent (r : typeRegistry) (pathSegments : List String)
    (yamlPath name : String) (m : List (String × Value))
    (h : r.byYAMLPath.lookup yamlPath = some name) :
    ensureMapType r pathSegments yamlPath m = (name, r) := by
  rw [ensureMapType, h]

theorem ensureMapType_idempotent_witness :
    (⟨"Config", [("a.b", "FooConfig")], [("FooConfig", "a.b")], [("a.b", ["A", "B"])],
      [("FooConfig", [])], ["Config", "FooConfig"]⟩ :
        typeRegistry).byYAMLPath.lookup "a.b" = some "FooConfig" ∧
    ensureMapType
      (⟨"Config", [("a.b", "FooConfig")], [("FooConfig", "a.b")], [("a.b", ["A", "B"])],
        [("FooConfig", [])], ["Config", "FooConfig"]⟩ : typeRegistry)
      ["A", "B"] "a.b" [("x", Value.vint 1)] =
      ("FooConfig",
       ⟨"Config", [("a.b", "FooConfig")], [("FooConfig", "a.b")], [("a.b", ["A", "B"])],
        [("FooConfig", [])], ["Config", "FooConfig"]⟩) := by
  refine ⟨rfl, ?_⟩
  exact ensureMapType_idempotent _ ["A", "B"] "a.b" "FooConfig" [("x", Value.vint 1)] rfl

/-! ## Determinism of generation under map reordering (C2)

A Go map value does not fix an iteration order, so two invocations of the
generator on the same decoded document see the same mappings as entry
lists in possibly different orders (at every nesting level).  Two decoded
values represent the same document when they are equal up to reordering of
mapping entries; `generateGoCode` is proved to be a function of that
equivalence class, which is the byte-identical-output determinism claim.
-/

mutual

/-- Structural equality of decoded values up to reordering of mapping
entries.  The mapping case also carries distinctness of the keys, which
every decoded Go map has. -/
inductive EquivVal : Value → Value → Prop where
  | vbool (b : Bool) : EquivVal (.vbool b) (.vbool b)
  | vint (n : Int) : EquivVal (.vint n) (.vint n)
  | vfloat (q : ℚ) : EquivVal (.vfloat q) (.vfloat q)
  | vstr (s : String) : EquivVal (.vstr s) (.vstr s)
  | vnull : EquivVal .vnull .vnull
  | vlist {l₁ l₂ : List Value} : EquivList l₁ l₂ → EquivVal (.vlist l₁) (.vlist l₂)
  | vmap {m₁ m₂ m₃ : List (String × Value)} : (m₁.map Prod.fst).Nodup →
      EquivPairs m₁ m₂ → m₂.Perm m₃ → EquivVal (.vmap m₁) (.vmap m₃)

/-- Pointwise equivalence of value lists. -/
inductive EquivList : List Value → List Value → Prop where
  | nil : EquivList [] []
  | cons {v₁ v₂ : Value} {t₁ t₂ : List Value} : EquivVal v₁ v₂ → EquivList t₁ t₂ →
      EquivList (v₁ :: t₁) (v₂ :: t₂)

/-- Pointwise equivalence of entry lists: same keys in the same order,
equivalent values. -/
inductive EquivPairs : List (String × Value) → List (String × Value) → Prop where
  | nil : EquivPairs [] []
  | cons (k : String) {v₁ v₂ : Value} {t₁ t₂ : List (String × Value)} :
      EquivVal v₁ v₂ → EquivPairs t₁ t₂ →
      EquivPairs ((k, v₁) :: t₁) ((k, v₂) :: t₂)

end

/-- Two entry lists decode the same mapping: one is pointwise equivalent to
a permutation of the other, with distinct keys. -/
def EquivEntries (m₁ m₂ : List (String × Value)) : Prop :=
  EquivVal (.vmap m₁) (.vmap m₂)

theorem EquivEntries.destruct {m₁ m₃ : List (String × Value)} (h : EquivEntries m₁ m₃) :
    ∃ m₂, (m₁.map Prod.fst).Nodup ∧ EquivPairs m₁ m₂ ∧ m₂.Perm m₃ := by
  cases h with
  | vmap hnd hf hp => exact ⟨_, hnd, hf, hp⟩

theorem mem_keys_of_lookup {β : Type} {l : List (String × β)} {k : String} {v : β}
    (h : l.lookup k = some v) : k ∈ l.map Prod.fst := by
  induction l with
  | nil => cases h
  | cons p t ih =>
    simp only [List.lookup] at h
    by_cases hk : (k == p.1) = true
    · simp only [List.map_cons, List.mem_cons]
      exact Or.inl (eq_of_beq hk)
    · simp only [Bool.not_eq_true] at hk
      rw [hk] at h
      exact List.mem_cons_of_mem _ (ih h)

theorem keys_eq_of_equivPairs {l₁ l₂ : List (String × Value)} (h : EquivPairs l₁ l₂) :
    l₁.map Prod.fst = l₂.map Prod.fst := by
  induction l₁ generalizing l₂ with
  | nil => cases h; rfl
  | cons p t ih =>
    cases h with
    | cons k hv ht => simp [ih ht]

theorem lookup_rel_of_equivPairs {l₁ l₂ : List (String × Value)} (h : EquivPairs l₁ l₂)
    (k : String) : Option.Rel EquivVal (l₁.lookup k) (l₂.lookup k) := by
  induction l₁ generalizing l₂ with
  | nil => cases h; exact Option.Rel.none
  | cons p t ih =>
    cases h with
    | cons k2 hv ht =>
      simp only [List.lookup]
      by_cases hk : (k == k2) = true
      · rw [hk]
        exact Option.Rel.some hv
      · simp only [Bool.not_eq_true] at hk
        rw [hk]
        exact ih ht

theorem perm_lookup {β : Type} {l₁ l₂ : List (String × β)} (h : l₁.Perm l₂)
    (hnd : (l₁.map Prod.fst).Nodup) (k : String) : l₁.lookup k = l₂.lookup k := by
  induction h with
  | nil => rfl
  | cons p h2 ih =>
    simp only [List.map_cons, List.nodup_cons] at hnd
    simp only [List.lookup]
    by_cases hk : (k == p.1) = true
    · rw [hk]
    · simp only [Bool.not_eq_true] at hk
      rw [hk]
      exact ih hnd.2
  | swap p q l =>
    simp only [List.map_cons, List.nodup_cons, List.mem_cons] at hnd
    simp only [List.lookup]
    by_cases hkq : (k == q.1) = true <;> by_cases hkp : (k == p.1) = true
    · exact absurd ((eq_of_beq hkq).symm.trans (eq_of_beq hkp))
        (fun he => hnd.1 (Or.inl he))
    · have hkp2 : (k == p.1) = false := by simp only [Bool.not_eq_true] at hkp; exact hkp
      rw [hkq, hkp2]
    · have hkq2 : (k == q.1) = false := by simp only [Bool.not_eq_true] at hkq; exact hkq
      rw [hkq2, hkp]
    · have hkp2 : (k == p.1) = false := by simp only [Bool.not_eq_true] at hkp; exact hkp
      have hkq2 : (k == q.1) = false := by simp only [Bool.not_eq_true] at hkq; exact hkq
      rw [hkq2, hkp2]
  | trans h1 h2 ih1 ih2 =>
    rw [ih1 hnd, ih2 ((h1.map Prod.fst).nodup_iff.mp hnd)]

theorem equivPairs_of_keys_lookup {l₁ l₂ : List (String × Value)}
    (hk : l₁.map Prod.fst = l₂.map Prod.fst)
    (hnd : (l₁.map Prod.fst).Nodup)
    (hl : ∀ k, Option.Rel EquivVal (l₁.lookup k) (l₂.lookup k)) :
    EquivPairs l₁ l₂ := by
  induction l₁ generalizing l₂ with
  | nil =>
    cases l₂ with
    | nil => exact EquivPairs.nil
    | cons q t₂ => simp at hk
  | cons p t₁ ih =>
    cases l₂ with
    | nil => simp at hk
    | cons q t₂ =>
      obtain ⟨pk, pv⟩ := p
      obtain ⟨qk, qv⟩ := q
      simp only [List.map_cons, List.cons.injEq] at hk
      obtain ⟨hkey, htk⟩ := hk
      subst hkey
      simp only [List.map_cons, List.nodup_cons] at hnd
      have hv : EquivVal pv qv := by
        have h0 := hl pk
        simp only [List.lookup, beq_self_eq_true] at h0
        cases h0 with
        | some hr => exact hr
      refine EquivPairs.cons pk hv (ih htk hnd.2 ?_)
      intro k
      by_cases hke : k = pk
      · subst hke
        have hn1 : t₁.lookup k = none := by
          rcases ho : t₁.lookup k with _ | v2
          · rfl
          · exact absurd (mem_keys_of_lookup ho) hnd.1
        have hn2 : t₂.lookup k = none := by
          rcases ho : t₂.lookup k with _ | v2
          · rfl
          · have hmem := mem_keys_of_lookup ho
            rw [← htk] at hmem
            exact absurd hmem hnd.1
        rw [hn1, hn2]
        exact Option.Rel.none
      · have h0 := hl k
        have hbk : (k == pk) = false := by
          simp [hke]
        simp only [List.lookup, hbk] at h0
        exact h0

theorem sortEntries_keys_sorted (m : List (String × Value)) :
    ((sortEntries m).map Prod.fst).Pairwise (· ≤ ·) := by
  have hs := @List.sorted_mergeSort (String × Value)
    (fun a b => a.1 ≤ b.1)
    (fun a b c hab hbc => by
      simp only [decide_eq_true_eq] at *
      exact le_trans hab hbc)
    (fun a b => by
      simp only [Bool.or_eq_true, decide_eq_true_eq]
      exact le_total a.1 b.1)
    m
  rw [List.pairwise_map]
  exact hs.imp (fun h => by simpa using h)

theorem sortEntries_keys_eq {m₁ m₂ : List (String × Value)}
    (hperm : (m₁.map Prod.fst).Perm (m₂.map Prod.fst)) :
    (sortEntries m₁).map Prod.fst = (sortEntries m₂).map Prod.fst := by
  refine List.eq_of_perm_of_sorted ?_ (sortEntries_keys_sorted m₁) (sortEntries_keys_sorted m₂)
  exact ((List.mergeSort_perm m₁ _).map _).trans
    (hperm.trans (((List.mergeSort_perm m₂ _).map _).symm))

/-- The iteration order the source uses is exactly the sorted key list of
sortedKeys: the keys of the sorted entries are the sorted keys. -/
theorem sortEntries_map_fst (m : List (String × Value)) :
    (sortEntries m).map Prod.fst = sortedKeys m := by
  refine List.eq_of_perm_of_sorted ?_ (sortEntries_keys_sorted m) ?_
  · exact ((List.mergeSort_perm m _).map _).trans
      ((List.mergeSort_perm (m.map Prod.fst) _).symm)
  · have hs := @List.sorted_mergeSort String
      (fun a b => a ≤ b)
      (fun a b c hab hbc => by
        simp only [decide_eq_true_eq] at *
        exact le_trans hab hbc)
      (fun a b => by
        simp only [Bool.or_eq_true, decide_eq_true_eq]
        exact le_total a b)
      (m.map Prod.fst)
    exact hs.imp (fun h => by simpa using h)

theorem sortEntries_equivPairs {m₁ m₂ : List (String × Value)} (h : EquivEntries m₁ m₂) :
    EquivPairs (sortEntries m₁) (sortEntries m₂) := by
  obtain ⟨mid, hnd, hf, hp⟩ := h.destruct
  have hk1 : m₁.map Prod.fst = mid.map Prod.fst := keys_eq_of_equivPairs hf
  have hkperm : (m₁.map Prod.fst).Perm (m₂.map Prod.fst) := by
    rw [hk1]
    exact hp.map _
  have hkeys := sortEntries_keys_eq hkperm
  have hnd1 : ((sortEntries m₁).map Prod.fst).Nodup := by
    have hpm : ((sortEntries m₁).map Prod.fst).Perm (m₁.map Prod.fst) :=
      (List.mergeSort_perm m₁ _).map _
    exact hpm.nodup_iff.mpr hnd
  apply equivPairs_of_keys_lookup hkeys hnd1
  intro k
  have e1 : (sortEntries m₁).lookup k = m₁.lookup k :=
    perm_lookup (List.mergeSort_perm m₁ _) hnd1 k
  have e2 : Option.Rel EquivVal (m₁.lookup k) (mid.lookup k) :=
    lookup_rel_of_equivPairs hf k
  have hndmid : (mid.map Prod.fst).Nodup := by
    rw [← hk1]
    exact hnd
  have e3 : mid.lookup k = m₂.lookup k := perm_lookup hp hndmid k
  have hnd2 : ((sortEntries m₂).map Prod.fst).Nodup := by
    have hpm : ((sortEntries m₂).map Prod.fst).Perm (m₂.map Prod.fst) :=
      (List.mergeSort_perm m₂ _).map _
    exact hpm.nodup_iff.mpr (hkperm.nodup_iff.mp hnd)
  have e4 : (sortEntries m₂).lookup k = m₂.lookup k :=
    perm_lookup (List.mergeSort_perm m₂ _) hnd2 k
  rw [e1, e4, ← e3]
  exact e2

/-- Equivalence of registry states reached by two runs on reordered inputs:
every field is equal except the stored definitions, which carry the same
names in the same order with equivalent entry lists. -/
def EquivReg (r₁ r₂ : typeRegistry) : Prop :=
  r₁.rootName = r₂.rootName ∧ r₁.byYAMLPath = r₂.byYAMLPath ∧
    r₁.pathByType = r₂.pathByType ∧ r₁.segmentsByYAML = r₂.segmentsByYAML ∧
    r₁.usedNames = r₂.usedNames ∧
    List.Forall₂ (fun p q => p.1 = q.1 ∧ EquivEntries p.2 q.2) r₁.defsByType r₂.defsByType

theorem deriveTypeName_congr {r₁ r₂ : typeRegistry} (segs : List String)
    (hroot : r₁.rootName = r₂.rootName) (hused : r₁.usedNames = r₂.usedNames) :
    (deriveTypeName r₁ segs).1 = (deriveTypeName r₂ segs).1 := by
  show deriveName r₁.rootName r₁.usedNames segs = deriveName r₂.rootName r₂.usedNames segs
  rw [hroot, hused]

theorem equiv_preserved (N : Nat) :
    (∀ (r₁ r₂ : typeRegistry) (v₁ v₂ : Value) (yamlPath : String) (segs : List String),
      2 * sizeOf v₁ ≤ N → EquivVal v₁ v₂ → EquivReg r₁ r₂ →
        (goTypeExprWithRegistry r₁ v₁ yamlPath segs).1 =
          (goTypeExprWithRegistry r₂ v₂ yamlPath segs).1 ∧
        EquivReg (goTypeExprWithRegistry r₁ v₁ yamlPath segs).2
          (goTypeExprWithRegistry r₂ v₂ yamlPath segs).2) ∧
    (∀ (r₁ r₂ : typeRegistry) (segs : List String) (yamlPath : String)
        (m₁ m₂ : List (String × Value)),
      2 * sizeOf m₁ + 1 ≤ N → EquivEntries m₁ m₂ → EquivReg r₁ r₂ →
        (ensureMapType r₁ segs yamlPath m₁).1 = (ensureMapType r₂ segs yamlPath m₂).1 ∧
        EquivReg (ensureMapType r₁ segs yamlPath m₁).2
          (ensureMapType r₂ segs yamlPath m₂).2) ∧
    (∀ (r₁ r₂ : typeRegistry) (pairs₁ pairs₂ : List (String × Value))
        (yamlPath : String) (segs : List String),
      2 * sizeOf pairs₁ ≤ N → EquivPairs pairs₁ pairs₂ → EquivReg r₁ r₂ →
        EquivReg (collectSortedChildren r₁ pairs₁ yamlPath segs)
          (collectSortedChildren r₂ pairs₂ yamlPath segs)) := by
  induction N using Nat.strong_induction_on with
  | _ N ih =>
    refine ⟨?_, ?_, ?_⟩
    · intro r₁ r₂ v₁ v₂ yamlPath segs hN hv hr
      cases hv with
      | vbool b =>
        constructor
        · simp only [goTypeExprWithRegistry]
        · simpa only [goTypeExprWithRegistry] using hr
      | vint n =>
        constructor
        · simp only [goTypeExprWithRegistry]
        · simpa only [goTypeExprWithRegistry] using hr
      | vfloat q =>
        constructor
        · simp only [goTypeExprWithRegistry]
        · simpa only [goTypeExprWithRegistry] using hr
      | vstr s =>
        constructor
        · simp only [goTypeExprWithRegistry]
        · simpa only [goTypeExprWithRegistry] using hr
      | vnull =>
        constructor
        · simp only [goTypeExprWithRegistry]
        · simpa only [goTypeExprWithRegistry] using hr
      | vlist hl =>
        cases hl with
        | nil =>
          simp only [goTypeExprWithRegistry]
          exact ⟨trivial, hr⟩
        | cons hx ht =>
          rename_i x₁ x₂ t₁ t₂
          simp only [Value.vlist.sizeOf_spec, List.cons.sizeOf_spec] at hN
          have h1 := (ih (N - 1) (by omega)).1 r₁ r₂ x₁ x₂ (yamlPath ++ "[]")
            (segs ++ ["Item"]) (by omega) hx hr
          simp only [goTypeExprWithRegistry]
          exact ⟨by rw [h1.1], h1.2⟩
      | vmap hnd hf hp =>
        rename_i m₁ m₂ m₃
        simp only [Value.vmap.sizeOf_spec] at hN
        have hent : EquivEntries m₁ m₃ := EquivVal.vmap hnd hf hp
        have h2 := (ih (N - 1) (by omega)).2.1 r₁ r₂ segs yamlPath m₁ m₃
          (by omega) hent hr
        simp only [goTypeExprWithRegistry]
        exact ⟨by rw [h2.1], h2.2⟩
    · intro r₁ r₂ segs yamlPath m₁ m₂ hN hent hr
      obtain ⟨hroot, hpath, hptype, hsegs, hused, hdefs⟩ := hr
      rcases hlk : r₁.byYAMLPath.lookup yamlPath with _ | name
      · have hlk2 : r₂.byYAMLPath.lookup yamlPath = none := by rw [← hpath]; exact hlk
        have hname := deriveTypeName_congr segs hroot hused
        have hr1 : EquivReg
            ⟨(deriveTypeName r₁ segs).2.rootName,
             (yamlPath, (deriveTypeName r₁ segs).1) :: (deriveTypeName r₁ segs).2.byYAMLPath,
             ((deriveTypeName r₁ segs).1, yamlPath) :: (deriveTypeName r₁ segs).2.pathByType,
             (yamlPath, segs) :: (deriveTypeName r₁ segs).2.segmentsByYAML,
             ((deriveTypeName r₁ segs).1, m₁) :: (deriveTypeName r₁ segs).2.defsByType,
             (deriveTypeName r₁ segs).2.usedNames⟩
            ⟨(deriveTypeName r₂ segs).2.rootName,
             (yamlPath, (deriveTypeName r₂ segs).1) :: (deriveTypeName r₂ segs).2.byYAMLPath,
             ((deriveTypeName r₂ segs).1, yamlPath) :: (deriveTypeName r₂ segs).2.pathByType,
             (yamlPath, segs) :: (deriveTypeName r₂ segs).2.segmentsByYAML,
             ((deriveTypeName r₂ segs).1, m₂) :: (deriveTypeName r₂ segs).2.defsByType,
             (deriveTypeName r₂ segs).2.usedNames⟩ := by
          rw [deriveTypeName_state r₁ segs, deriveTypeName_state r₂ segs]
          exact ⟨hroot, by rw [hname, hpath], by rw [hname, hptype], by rw [hsegs],
            by rw [hname, hused],
            List.Forall₂.cons ⟨hname, hent⟩ hdefs⟩
        have hsp := sortEntries_equivPairs hent
        have hsz : 2 * sizeOf (sortEntries m₁) ≤ N - 1 := by
          have hs : sizeOf (sortEntries m₁) = sizeOf m₁ :=
            perm_sizeOf_eq (List.mergeSort_perm m₁ _)
          omega
        have h3 := (ih (N - 1) (by omega)).2.2 _ _ (sortEntries m₁) (sortEntries m₂)
          yamlPath segs hsz hsp hr1
        simp only [ensureMapType, hlk, hlk2]
        exact ⟨hname, h3⟩
      · have hlk2 : r₂.byYAMLPath.lookup yamlPath = some name := by
          rw [← hpath]
          exact hlk
        simp only [ensureMapType, hlk, hlk2]
        exact ⟨trivial, hroot, hpath, hptype, hsegs, hused, hdefs⟩
    · intro r₁ r₂ pairs₁ pairs₂ yamlPath segs hN hps hr
      cases hps with
      | nil => simpa only [collectSortedChildren] using hr
      | cons k hv ht =>
        rename_i v₁ v₂ t₁ t₂
        simp only [List.cons.sizeOf_spec, Prod.mk.sizeOf_spec] at hN
        have h1 := (ih (N - 1) (by omega)).1 r₁ r₂ v₁ v₂ (yamlPath ++ "." ++ k)
          (segs ++ [toExportedName k]) (by omega) hv hr
        have h2 := (ih (N - 1) (by omega)).2.2 _ _ t₁ t₂ yamlPath segs (by omega) ht h1.2
        simpa only [collectSortedChildren] using h2

theorem goType_equiv {r₁ r₂ : typeRegistry} {v₁ v₂ : Value} (yamlPath : String)
    (segs : List String) (hv : EquivVal v₁ v₂) (hr : EquivReg r₁ r₂) :
    (goTypeExprWithRegistry r₁ v₁ yamlPath segs).1 =
      (goTypeExprWithRegistry r₂ v₂ yamlPath segs).1 ∧
    EquivReg (goTypeExprWithRegistry r₁ v₁ yamlPath segs).2
      (goTypeExprWithRegistry r₂ v₂ yamlPath segs).2 :=
  (equiv_preserved (2 * sizeOf v₁)).1 r₁ r₂ v₁ v₂ yamlPath segs le_rfl hv hr

theorem forall₂_keys_eq {β : Type} {R : β → β → Prop} {l₁ l₂ : List (String × β)}
    (h : List.Forall₂ (fun p q => p.1 = q.1 ∧ R p.2 q.2) l₁ l₂) :
    l₁.map Prod.fst = l₂.map Prod.fst := by
  induction h with
  | nil => rfl
  | cons hpq htail ih => simp [hpq.1, ih]

theorem lookup_rel_of_forall₂ {β : Type} {R : β → β → Prop} {l₁ l₂ : List (String × β)}
    (h : List.Forall₂ (fun p q => p.1 = q.1 ∧ R p.2 q.2) l₁ l₂) (k : String) :
    Option.Rel R (l₁.lookup k) (l₂.lookup k) := by
  induction h with
  | nil => exact Option.Rel.none
  | cons hpq htail ih =>
    rename_i p q t₁ t₂
    obtain ⟨hk, hv⟩ := hpq
    simp only [List.lookup, hk]
    by_cases hkq : (k == q.1) = true
    · rw [hkq]
      exact Option.Rel.some hv
    · simp only [Bool.not_eq_true] at hkq
      rw [hkq]
      exact ih

theorem writeStructFields_equiv {r₁ r₂ : typeRegistry} {ps₁ ps₂ : List (String × Value)}
    (bs : List String) (yamlPath : String) (indent : Nat)
    (hps : EquivPairs ps₁ ps₂) (hr : EquivReg r₁ r₂) :
    (writeStructFields r₁ bs yamlPath indent ps₁).1 =
      (writeStructFields r₂ bs yamlPath indent ps₂).1 ∧
    EquivReg (writeStructFields r₁ bs yamlPath indent ps₁).2
      (writeStructFields r₂ bs yamlPath indent ps₂).2 := by
  induction ps₁ generalizing ps₂ r₁ r₂ with
  | nil =>
    cases hps
    exact ⟨rfl, hr⟩
  | cons p t ih =>
    cases hps with
    | cons k hv ht =>
      have h1 := goType_equiv (yamlPath ++ "." ++ k) (bs ++ [toExportedName k]) hv hr
      have h2 := ih ht h1.2
      simp only [writeStructFields]
      exact ⟨by rw [h1.1, h2.1], h2.2⟩

theorem writeStruct_equiv {r₁ r₂ : typeRegistry} {m₁ m₂ : List (String × Value)}
    (name yamlPath : String) (indent : Nat)
    (hm : EquivEntries m₁ m₂) (hr : EquivReg r₁ r₂) :
    (writeStruct r₁ name yamlPath m₁ indent).1 =
      (writeStruct r₂ name yamlPath m₂ indent).1 ∧
    EquivReg (writeStruct r₁ name yamlPath m₁ indent).2
      (writeStruct r₂ name yamlPath m₂ indent).2 := by
  have hsegs : r₁.segmentsByYAML = r₂.segmentsByYAML := hr.2.2.2.1
  have h1 := writeStructFields_equiv ((r₂.segmentsByYAML.lookup yamlPath).getD [])
    yamlPath indent (sortEntries_equivPairs hm) hr
  unfold writeStruct
  rw [hsegs]
  dsimp only
  exact ⟨by rw [h1.1], h1.2⟩

theorem emitTypes_equiv {r₁ r₂ : typeRegistry} (names : List String)
    (hr : EquivReg r₁ r₂) :
    (emitTypes r₁ names).1 = (emitTypes r₂ names).1 ∧
    EquivReg (emitTypes r₁ names).2 (emitTypes r₂ names).2 := by
  induction names generalizing r₁ r₂ with
  | nil => exact ⟨rfl, hr⟩
  | cons typeName rest ih =>
    have hptype : r₁.pathByType = r₂.pathByType := hr.2.2.1
    have hdefs := hr.2.2.2.2.2
    have hlrel := lookup_rel_of_forall₂ hdefs typeName
    have hmap : EquivEntries ((r₁.defsByType.lookup typeName).getD [])
        ((r₂.defsByType.lookup typeName).getD []) := by
      rcases hd1 : r₁.defsByType.lookup typeName with _ | mm₁ <;>
        rcases hd2 : r₂.defsByType.lookup typeName with _ | mm₂ <;>
          rw [hd1, hd2] at hlrel
      · exact EquivVal.vmap List.nodup_nil EquivPairs.nil (List.Perm.refl [])
      · cases hlrel
      · cases hlrel
      · simp only [Option.getD_some]
        cases hlrel with
        | some hrel => exact hrel
    have hw := writeStruct_equiv typeName ((r₂.pathByType.lookup typeName).getD "") 0
      hmap hr
    have h2 := ih hw.2
    simp only [emitTypes]
    rw [hptype]
    exact ⟨by rw [hw.1, h2.1], h2.2⟩

theorem writeRootStructFields_equiv {r₁ r₂ : typeRegistry}
    {ps₁ ps₂ : List (String × Value)} (hps : EquivPairs ps₁ ps₂) (hr : EquivReg r₁ r₂) :
    (writeRootStructFields r₁ ps₁).1 = (writeRootStructFields r₂ ps₂).1 ∧
    EquivReg (writeRootStructFields r₁ ps₁).2 (writeRootStructFields r₂ ps₂).2 := by
  induction ps₁ generalizing ps₂ r₁ r₂ with
  | nil =>
    cases hps
    exact ⟨rfl, hr⟩
  | cons p t ih =>
    cases hps with
    | cons k hv ht =>
      have h1 := goType_equiv k [toExportedName k] hv hr
      have h2 := ih ht h1.2
      simp only [writeRootStructFields]
      exact ⟨by rw [h1.1, h2.1], h2.2⟩

theorem writeRootStruct_equiv {r₁ r₂ : typeRegistry} {m₁ m₂ : List (String × Value)}
    (name : String) (hm : EquivEntries m₁ m₂) (hr : EquivReg r₁ r₂) :
    (writeRootStruct r₁ name m₁).1 = (writeRootStruct r₂ name m₂).1 := by
  have h1 := writeRootStructFields_equiv (sortEntries_equivPairs hm) hr
  simp only [writeRootStruct]
  rw [h1.1]

theorem collectFromRootSorted_equiv {r₁ r₂ : typeRegistry}
    {l₁ l₂ : List (String × Value)} (hps : EquivPairs l₁ l₂) (hr : EquivReg r₁ r₂) :
    EquivReg (collectFromRootSorted r₁ l₁) (collectFromRootSorted r₂ l₂) := by
  induction l₁ generalizing l₂ r₁ r₂ with
  | nil =>
    cases hps
    exact hr
  | cons p t ih =>
    cases hps with
    | cons k hv ht =>
      have h1 := goType_equiv k [toExportedName k] hv hr
      simp only [collectFromRootSorted]
      exact ih ht h1.2

/-- C2: for every fixed package name, root name, decoded mapping and
validation list, two invocations of code generation produce byte-identical
output: generateGoCode is a function of the decoded mapping itself, not of
the iteration order in which its entries (at any nesting depth) are
presented, because every map iteration goes through lexicographic key
sorting and the emitted type declarations are sorted by type name.  Two
entry lists related by EquivEntries present the same decoded mapping. -/
theorem generateGoCode_deterministic (pkgName rootName : String)
    (m₁ m₂ : List (String × Value)) (validations : List fieldValidation)
    (h : EquivEntries m₁ m₂) :
    generateGoCode pkgName rootName m₁ validations =
      generateGoCode pkgName rootName m₂ validations := by
  have hr0 : EquivReg (newTypeRegistry rootName) (newTypeRegistry rootName) :=
    ⟨rfl, rfl, rfl, rfl, rfl, List.Forall₂.nil⟩
  have hc : EquivReg (collectFromRoot (newTypeRegistry rootName) m₁)
      (collectFromRoot (newTypeRegistry rootName) m₂) :=
    collectFromRootSorted_equiv (sortEntries_equivPairs h) hr0
  have hnames : sortedTypeNames (collectFromRoot (newTypeRegistry rootName) m₁) =
      sortedTypeNames (collectFromRoot (newTypeRegistry rootName) m₂) := by
    unfold sortedTypeNames
    rw [forall₂_keys_eq hc.2.2.2.2.2]
  have he := emitTypes_equiv
    (sortedTypeNames (collectFromRoot (newTypeRegistry rootName) m₂)) hc
  have hroot := writeRootStruct_equiv rootName h he.2
  simp only [generateGoCode]
  rw [hnames, he.1, hroot]

theorem generateGoCode_deterministic_witness :
    EquivEntries [("b", Value.vint 1), ("a", Value.vstr "x")]
      [("a", Value.vstr "x"), ("b", Value.vint 1)] ∧
    generateGoCode "config" "Config" [("b", Value.vint 1), ("a", Value.vstr "x")] [] =
      generateGoCode "config" "Config" [("a", Value.vstr "x"), ("b", Value.vint 1)] [] := by
  have hequiv : EquivEntries [("b", Value.vint 1), ("a", Value.vstr "x")]
      [("a", Value.vstr "x"), ("b", Value.vint 1)] :=
    EquivVal.vmap (by decide)
      (EquivPairs.cons "b" (EquivVal.vint 1)
        (EquivPairs.cons "a" (EquivVal.vstr "x") EquivPairs.nil))
      (List.Perm.swap ("a", Value.vstr "x") ("b", Value.vint 1) [])
  exact ⟨hequiv, generateGoCode_deterministic "config" "Config" _ _ [] hequiv⟩
